import Mathlib

/-!
# Verification of the yameilo bidirectional YAML sync core

This file gives a shallow embedding of the core of the yameilo visual YAML
editor (`src/components/YAMLVisualizer.tsx` and the path handling of
`src/components/YAMLForm.tsx`) and proves or refutes the frozen claims about
it.

Embedding conventions:
* JavaScript plain values (the `data` exchanged with the form) are the
  inductive `Value`; numbers are modelled as `Int` (no claim depends on
  floating-point arithmetic), and mappings as ordered association lists,
  mirroring JS object key order.
* Nodes of the `yaml` library (`YAML.Node`) are the inductive `ANode`:
  scalars, sequences and maps, each carrying the comment slots the source
  reads or writes (`commentBefore`, `comment`, `commentAfter`).  Map entries
  (`YAML.Pair`) are `APair`, carrying the pair's own comment slots and a
  scalar key (`AKey`) with its comment slots; the source only processes
  pairs whose key is a scalar, so the embedding restricts keys to scalars,
  rendered as strings the way the source casts them (`as string`).
* JS string truthiness (`if (x)` on `string | undefined`) is `truthyStr`:
  `undefined` and `""` are falsy.
* External library calls that can fail (parsing, serialization) are oracle
  parameters returning `Option`, so the control flow around them can be
  verified for every possible behaviour of the library.
-/

/-- Scalar payload of a YAML scalar node / plain JS primitive. -/
inductive SVal where
  | null
  | bool (b : Bool)
  | num (n : Int)
  | str (s : String)

/-- Plain JS value tree exchanged with the form view (`data`).  `obj` is an
ordered association list mirroring JS object key iteration order. -/
inductive Value where
  | null
  | bool (b : Bool)
  | num (n : Int)
  | str (s : String)
  | arr (items : List Value)
  | obj (fields : List (String × Value))

/-- Scalar key node of a mapping entry (`pair.key`), with the comment slots
the source reads (`key.commentBefore`, `key.comment`, `key.commentAfter`). -/
structure AKey where
  name : String
  commentBefore : Option String
  comment : Option String
  commentAfter : Option String

mutual
/-- A `yaml` library document node (`YAML.Node`): scalar, sequence or map,
with the comment slots the source accesses. -/
inductive ANode where
  | scalar (v : SVal) (commentBefore comment commentAfter : Option String)
  | seq (items : List ANode) (commentBefore comment commentAfter : Option String)
  | amap (items : List APair) (commentBefore comment commentAfter : Option String)

/-- A map entry (`YAML.Pair`): scalar key, the pair's own comment slots, and
the value node (`pair.value`, which the source guards with
`pair.value && YAML.isNode(pair.value)`, hence an `Option`). -/
inductive APair where
  | mk (key : AKey) (commentBefore comment commentAfter : Option String) (value : Option ANode)
end

/-- Key node of a pair. -/
def APair.key : APair → AKey
  | .mk k _ _ _ _ => k

/-- The pair's own `commentBefore` slot. -/
def APair.commentBefore : APair → Option String
  | .mk _ cb _ _ _ => cb

/-- The pair's own `comment` slot. -/
def APair.comment : APair → Option String
  | .mk _ _ c _ _ => c

/-- The pair's own `commentAfter` slot. -/
def APair.commentAfter : APair → Option String
  | .mk _ _ _ ca _ => ca

/-- The pair's value node. -/
def APair.value : APair → Option ANode
  | .mk _ _ _ _ v => v

/-- `node.commentBefore` of any node. -/
def ANode.commentBefore : ANode → Option String
  | .scalar _ cb _ _ => cb
  | .seq _ cb _ _ => cb
  | .amap _ cb _ _ => cb

/-- `node.comment` of any node. -/
def ANode.comment : ANode → Option String
  | .scalar _ _ c _ => c
  | .seq _ _ c _ => c
  | .amap _ _ c _ => c

/-- `node.commentAfter` of any node. -/
def ANode.commentAfter : ANode → Option String
  | .scalar _ _ _ ca => ca
  | .seq _ _ _ ca => ca
  | .amap _ _ _ ca => ca

/-- Replace the `commentBefore` and `comment` slots of a node, keeping
everything else. -/
def ANode.setComments : ANode → Option String → Option String → ANode
  | .scalar v _ _ ca, cb, c => .scalar v cb c ca
  | .seq items _ _ ca, cb, c => .seq items cb c ca
  | .amap items _ _ ca, cb, c => .amap items cb c ca

/-- The whitespace characters JS `String.prototype.trim` strips (ASCII
core; the comment strings at issue contain no exotic Unicode spaces). -/
def isJsWhitespace (c : Char) : Bool :=
  c = ' ' || c = '\t' || c = '\n' || c = '\r' || c = '\x0b' || c = '\x0c'

/-- JS `s.trim()`: strip leading and trailing whitespace. -/
def jsTrim (s : String) : String :=
  String.mk (((s.toList.dropWhile isJsWhitespace).reverse.dropWhile isJsWhitespace).reverse)

/-- JS string truthiness: `if (x) target = x` with `target` previously
`undefined` leaves `truthyStr x` in `target` (`undefined` and `""` are
falsy). -/
def truthyStr : Option String → Option String
  | some s => if s = "" then none else some s
  | none => none

/-- JS `if (src) target = src` on an already-populated `target`: the source
overwrites the target exactly when it is truthy. -/
def jsOrAssign (src tgt : Option String) : Option String :=
  match truthyStr src with
  | some s => some s
  | none => tgt

/-- First truthy element of a chain `a || b || c || ...` of
`string | undefined` values. -/
def firstTruthy : List (Option String) → Option String
  | [] => none
  | o :: rest =>
    match truthyStr o with
    | some s => some s
    | none => firstTruthy rest

mutual
/-- `valueToNode` (YAMLVisualizer.tsx:251-258): converts a plain JS value to
a fresh `yaml` node by stringifying and re-parsing it; the round trip
produces a comment-free node of the same shape.  For the inductive (hence
acyclic, finite) `Value` the library round trip always succeeds, so the
embedding is total. -/
def valueToNode : Value → ANode
  | .null => .scalar .null none none none
  | .bool b => .scalar (.bool b) none none none
  | .num n => .scalar (.num n) none none none
  | .str s => .scalar (.str s) none none none
  | .arr l => .seq (valueListToNodes l) none none none
  | .obj l => .amap (valueFieldsToPairs l) none none none

/-- Children of a fresh sequence node. -/
def valueListToNodes : List Value → List ANode
  | [] => []
  | v :: vs => valueToNode v :: valueListToNodes vs

/-- Entries of a fresh map node. -/
def valueFieldsToPairs : List (String × Value) → List APair
  | [] => []
  | (k, v) :: ps =>
      APair.mk ⟨k, none, none, none⟩ none none none (some (valueToNode v)) :: valueFieldsToPairs ps
end

/-- The key→pair map the source builds with `oldPairs.set(key, pair)` over
`oldMap.items` (later entries overwrite earlier ones), then queries with
`oldPairs.get(key)`: the last pair whose scalar key renders to `k`. -/
def lookupPair (items : List APair) (k : String) : Option APair :=
  items.reverse.find? (fun p => p.key.name = k)

/-- The comment transfer the sequence branch of `updateNodeValue` performs on
a reconciled item (YAMLVisualizer.tsx:336-342): the old item's truthy
`commentBefore`/`comment` overwrite the new item's. -/
def applyItemComments (old upd : ANode) : ANode :=
  upd.setComments (jsOrAssign old.commentBefore upd.commentBefore)
    (jsOrAssign old.comment upd.comment)

mutual
/-- `updateNodeValue` (YAMLVisualizer.tsx:261-366): comment-preserving
reconciliation of an old annotated node against a new plain value.  Branch
order mirrors the source: `newValue === null` first, then map×object,
sequence×array, old-scalar, and the default `valueToNode` case.  In the
source the function returns `YAML.Node | null`, `null` arising only when
`valueToNode`'s stringify/parse round trip fails, which cannot happen for
the inductive `Value`; the embedding is therefore total and the source's
`if (newValueNode)` / `if (newItem)` guards always pass. -/
def updateNodeValue : Option ANode → Value → ANode
  | _, .null => valueToNode .null
  | some (.amap oldItems ocb oc _), .obj fields =>
      .amap (updateMapEntries oldItems fields) (truthyStr ocb) (truthyStr oc) none
  | some (.seq oldItems ocb oc _), .arr items =>
      .seq (updateSeqItems oldItems items) (truthyStr ocb) (truthyStr oc) none
  | some (.scalar _ ocb oc _), v =>
      match valueToNode v with
      | .scalar sv _ _ _ => .scalar sv (truthyStr ocb) (truthyStr oc) none
      | n => n
  | _, v => valueToNode v

/-- Map-branch entry loop of `updateNodeValue` (YAMLVisualizer.tsx:285-316):
walk `Object.keys(newValue)` in order; reuse the old pair's key node
verbatim and its truthy pair comments when the key existed, else synthesize
a fresh pair; the value is reconciled recursively. -/
def updateMapEntries (oldItems : List APair) : List (String × Value) → List APair
  | [] => []
  | (k, nv) :: rest =>
    let oldPair := lookupPair oldItems k
    let oldValue : Option ANode :=
      match oldPair with
      | some p => p.value
      | none => none
    let newValueNode := updateNodeValue oldValue nv
    let newPair : APair :=
      match oldPair with
      | some p =>
          .mk p.key (truthyStr p.commentBefore) (truthyStr p.comment) none (some newValueNode)
      | none => .mk ⟨k, none, none, none⟩ none none none (some newValueNode)
    newPair :: updateMapEntries oldItems rest

/-- Sequence-branch item loop of `updateNodeValue` (YAMLVisualizer.tsx:330-346):
walk the new array; positions with an old item are reconciled and then
receive the old item's truthy comments; positions past the old length are
synthesized fresh. -/
def updateSeqItems : List ANode → List Value → List ANode
  | _, [] => []
  | [], v :: vs => updateNodeValue none v :: updateSeqItems [] vs
  | o :: os, v :: vs =>
      applyItemComments o (updateNodeValue (some o) v) :: updateSeqItems os vs
end

/-- The path→comment map (`commentsMap`), a JS `Map<string, string>` kept as
an ordered association list in insertion order. -/
abbrev CMap := List (String × String)

/-- JS `Map.prototype.set`: replace in place if the key exists, else append. -/
def mapSet (m : CMap) (k v : String) : CMap :=
  if m.any (fun p => p.1 = k) then m.map (fun p => if p.1 = k then (k, v) else p)
  else m ++ [(k, v)]

/-- Decimal rendering of a sequence index, as the JS template literal
`[i]` interpolates it. -/
def natRepr (n : Nat) : String :=
  if n = 0 then "0" else String.mk (((Nat.digits 10 n).reverse).map (fun d => Char.ofNat (48 + d)))

mutual
/-- Body of `extractComments` (YAMLVisualizer.tsx:51-214) on a non-null
node: depth-first walk recording one comment per path into the map.  The
comment values the `yaml` library stores are strings, so the source's
defensive handling of comment objects collapses to the string case. -/
def extractCommentsCore : ANode → String → CMap → CMap
  | .amap items _ _ _, path, comments => extractMapItems items path comments
  | .seq items _ _ _, path, comments => extractSeqItems items 0 path comments
  | .scalar _ cb c ca, path, comments =>
    match firstTruthy [c, ca, cb] with
    | some s => if path ≠ "" ∧ jsTrim s ≠ "" then mapSet comments path (jsTrim s) else comments
    | none => comments

/-- Map-branch loop of `extractComments` (YAMLVisualizer.tsx:57-176): per
entry, chain key comment → key commentAfter → pair comment → pair
commentAfter; if nothing was found and the value is a map, try its
`commentBefore`; if still nothing, the value's comment/commentAfter; then
recurse into the value under the child path.  The two equations split on
the source's `pair.value && YAML.isNode(pair.value)` guard. -/
def extractMapItems : List APair → String → CMap → CMap
  | [], _, comments => comments
  | .mk key _pcb pc pca none :: rest, path, comments =>
    let keyPath := if path = "" then key.name else path ++ "." ++ key.name
    let c1 :=
      match firstTruthy [key.comment, key.commentAfter, pc, pca] with
      | some s => if jsTrim s ≠ "" then mapSet comments keyPath (jsTrim s) else comments
      | none => comments
    extractMapItems rest path c1
  | .mk key _pcb pc pca (some vn) :: rest, path, comments =>
    let keyPath := if path = "" then key.name else path ++ "." ++ key.name
    let found1 := firstTruthy [key.comment, key.commentAfter, pc, pca]
    let c1 :=
      match found1 with
      | some s => if jsTrim s ≠ "" then mapSet comments keyPath (jsTrim s) else comments
      | none => comments
    let stepA : Option String × CMap :=
      match vn, found1 with
      | .amap _ vcb _ _, none =>
        (match truthyStr vcb with
         | some s => if jsTrim s ≠ "" then (some s, mapSet c1 keyPath (jsTrim s)) else (none, c1)
         | none => (none, c1))
      | _, f => (f, c1)
    let c3 :=
      match stepA.1 with
      | none =>
        (match firstTruthy [vn.comment, vn.commentAfter] with
         | some s => if jsTrim s ≠ "" then mapSet stepA.2 keyPath (jsTrim s) else stepA.2
         | none => stepA.2)
      | some _ => stepA.2
    extractMapItems rest path (extractCommentsCore vn keyPath c3)

/-- Sequence-branch loop of `extractComments` (YAMLVisualizer.tsx:179-198):
per item, chain comment → commentAfter → commentBefore at the indexed child
path, then recurse into the item. -/
def extractSeqItems : List ANode → Nat → String → CMap → CMap
  | [], _, _, comments => comments
  | item :: rest, i, path, comments =>
    let itemPath := if path = "" then "[" ++ natRepr i ++ "]" else path ++ "[" ++ natRepr i ++ "]"
    let c1 :=
      match firstTruthy [item.comment, item.commentAfter, item.commentBefore] with
      | some s => if jsTrim s ≠ "" then mapSet comments itemPath (jsTrim s) else comments
      | none => comments
    let c2 := extractCommentsCore item itemPath c1
    extractSeqItems rest (i + 1) path c2
end

/-- `extractComments` (YAMLVisualizer.tsx:51-214): entry point, returning
the map unchanged on a null node. -/
def extractComments : Option ANode → String → CMap → CMap
  | none, _, comments => comments
  | some n, path, comments => extractCommentsCore n path comments

/-- UTF-16 code units of a string, the representation JS strings are
compared by (`Array.prototype.sort`'s default comparator). -/
def utf16Units (s : String) : List Nat :=
  (s.toList.map (fun c =>
    let n := c.toNat
    if n < 65536 then [n] else [55296 + (n - 65536) / 1024, 56320 + (n - 65536) % 1024])).flatten

/-- Lexicographic order on code-unit lists. -/
def lexLeNat : List Nat → List Nat → Bool
  | [], _ => true
  | _ :: _, [] => false
  | a :: as, b :: bs => if a < b then true else if b < a then false else lexLeNat as bs

/-- The default JS string order used by `Object.keys(obj).sort()`:
code-unit-wise lexicographic comparison. -/
def jsLe (a b : String) : Bool := lexLeNat (utf16Units a) (utf16Units b)

/-- JS property access `obj[key]` on the association-list model of a JS
object: the first (in a real JS object, only) binding for the key. -/
def lookupField : List (String × Value) → String → Option Value
  | [], _ => none
  | (k', v) :: rest, k => if k' = k then some v else lookupField rest k

/-- The canonical-numeral test the highlighted-path effect performs on a
piece: `const numPart = parseInt(part); !isNaN(numPart) && part ===
String(numPart)` (YAMLForm.tsx:958-959).  For the non-negative numerals a
rendered index can produce (below 2^53, where `parseInt` is exact) this is
exactly "a digit string with no leading zero". -/
def isCanonNat (s : String) : Bool :=
  match s.toList with
  | [] => false
  | c :: cs => (c.isDigit && (c ≠ '0' || cs.isEmpty)) && cs.all Char.isDigit

/-- Numeric value of a digit string, as `parseInt` computes it. -/
def parseNatDigits (s : String) : Nat :=
  s.toList.foldl (fun a c => 10 * a + (c.toNat - 48)) 0

/-- ECMAScript array-index property key: a canonical decimal numeral whose
value is below 2^32 - 1.  Plain JS objects expose such keys before all
other string keys, in ascending numeric order, regardless of the order
the properties were assigned in (OrdinaryOwnPropertyKeys). -/
def isArrayIndexKey (k : String) : Bool :=
  isCanonNat k && Nat.blt (parseNatDigits k) 4294967295

/-- Insert a binding into a list kept sorted by the numeric value of its
array-index key. -/
def insertIdxSorted (kv : String × Value) : List (String × Value) → List (String × Value)
  | [] => [kv]
  | kv2 :: rest =>
    if parseNatDigits kv.1 ≤ parseNatDigits kv2.1 then kv :: kv2 :: rest
    else kv2 :: insertIdxSorted kv rest

/-- Sort bindings by the numeric value of their array-index keys. -/
def sortIdxKeys : List (String × Value) → List (String × Value)
  | [] => []
  | kv :: rest => insertIdxSorted kv (sortIdxKeys rest)

/-- The own-property order a plain JS object built by a sequence of
assignments exposes to `Object.keys`, serialization and iteration
(OrdinaryOwnPropertyKeys): array-index keys first, in ascending numeric
order, then the remaining string keys in assignment order. -/
def jsOwnOrder (l : List (String × Value)) : List (String × Value) :=
  sortIdxKeys (l.filter (fun kv => isArrayIndexKey kv.1))
    ++ l.filter (fun kv => !isArrayIndexKey kv.1)

mutual
/-- `sortObjectKeys` (YAMLVisualizer.tsx:799-814): recursively sort mapping
keys with JS default string order, map over arrays, return scalars
unchanged.  The rebuilt `sortedObj` is a plain JS object, so the key order
it actually exposes is `jsOwnOrder` of the assignment order: array-index
keys migrate to the front in ascending numeric order. -/
def sortObjectKeys : Value → Value
  | .null => .null
  | .bool b => .bool b
  | .num n => .num n
  | .str s => .str s
  | .arr l => .arr (sortArrItems l)
  | .obj l => .obj (jsOwnOrder (sortKeysLoop l ((l.map Prod.fst).mergeSort jsLe)))
termination_by v => (sizeOf v, 0)
decreasing_by
  · simp_wf
    apply Prod.Lex.left
    simp_arith
  · simp_wf
    apply Prod.Lex.left
    simp_arith

/-- `obj.map(item => sortObjectKeys(item))`. -/
def sortArrItems : List Value → List Value
  | [] => []
  | v :: vs => sortObjectKeys v :: sortArrItems vs
termination_by l => (sizeOf l, 0)
decreasing_by
  · simp_wf
    apply Prod.Lex.left
    simp_arith
  · simp_wf
    apply Prod.Lex.left
    simp_arith

/-- `for (const key of sortedKeys) sortedObj[key] = sortObjectKeys(obj[key])`:
the sequence of assignments, in loop order.  In JS every sorted key is a
key of the object, so the lookup never misses; a (unreachable for
JS-derived values) missing key contributes nothing.  The order the built
object exposes is `jsOwnOrder` of this list. -/
def sortKeysLoop (l : List (String × Value)) : List String → List (String × Value)
  | [] => []
  | k :: ks =>
    (match hlk : lookupField l k with
     | some v => [(k, sortObjectKeys v)]
     | none => []) ++ sortKeysLoop l ks
termination_by ks => (sizeOf l, sizeOf ks)
decreasing_by
  · simp_wf
    have hsz : ∀ (m : List (String × Value)) (k : String) (v : Value),
        lookupField m k = some v → sizeOf v < sizeOf m := by
      intro m
      induction m with
      | nil => intro k v h; simp [lookupField] at h
      | cons p rest ih =>
        intro k v h
        obtain ⟨k1, v1⟩ := p
        by_cases hk : k1 = k
        · simp [lookupField, hk] at h
          subst h
          simp_arith
        · simp [lookupField, hk] at h
          have := ih k v h
          simp_arith
          omega
    apply Prod.Lex.left
    have := hsz l k v hlk
    omega
  · simp_wf
    exact Prod.Lex.right _ (by omega)
end

/-- No duplicate keys. -/
def nodupKeysB : List String → Bool
  | [] => true
  | k :: ks => !(ks.contains k) && nodupKeysB ks

mutual
/-- Well-formedness of a `Value` as the image of a JS value: every object
level has pairwise distinct keys (JS objects cannot carry duplicate
properties). -/
def Value.wf : Value → Bool
  | .null => true
  | .bool _ => true
  | .num _ => true
  | .str _ => true
  | .arr l => Value.wfElems l
  | .obj l => nodupKeysB (l.map Prod.fst) && Value.wfFields l

/-- All array elements well-formed. -/
def Value.wfElems : List Value → Bool
  | [] => true
  | v :: vs => v.wf && Value.wfElems vs

/-- All object field values well-formed. -/
def Value.wfFields : List (String × Value) → Bool
  | [] => true
  | (_, v) :: ps => v.wf && Value.wfFields ps
end

mutual
/-- A node carrying no comment in any slot, anywhere (the shape
`valueToNode` produces). -/
def ANode.commentFree : ANode → Bool
  | .scalar _ cb c ca => cb.isNone && c.isNone && ca.isNone
  | .seq items cb c ca => cb.isNone && c.isNone && ca.isNone && commentFreeList items
  | .amap items cb c ca => cb.isNone && c.isNone && ca.isNone && commentFreePairs items

/-- All sequence items comment-free. -/
def commentFreeList : List ANode → Bool
  | [] => true
  | n :: rest => n.commentFree && commentFreeList rest

/-- All map entries comment-free: key slots, pair slots and value. -/
def commentFreePairs : List APair → Bool
  | [] => true
  | .mk key cb c ca v :: rest =>
      key.commentBefore.isNone && key.comment.isNone && key.commentAfter.isNone &&
        cb.isNone && c.isNone && ca.isNone &&
        (match v with
         | some n => n.commentFree
         | none => true) &&
        commentFreePairs rest
end

/-- State owned by the sync controller that the editor-change handler reads
and writes: the current editor text, the parse-error message, the canonical
`data` value published to the form (`onDataChange`), the comment map, and
the retained parsed document (`yamlDocRef`), modelled by its contents
(`none` = no document). -/
structure SyncState where
  yamlText : String
  parseError : String
  data : Value
  commentsMap : CMap
  doc : Option (Option ANode)

/-- Outcome of the external `YAML.parseDocument(text)` / `doc.toJS()` calls:
either the library threw (caught by the handler), or it returned a document
with the given contents whose `toJS()` is the given value (`none` =
`undefined`). -/
inductive ParseOutcome where
  | threw (msg : String)
  | parsed (contents : Option ANode) (js : Option Value)

/-- `handleEditorChange` (YAMLVisualizer.tsx:536-573): the text-changed
transition.  If the form-publish guard is up, nothing happens; otherwise
the text is stored, empty/whitespace-only text resets to the empty mapping,
and anything else is parsed: on success the value is published, the error
cleared and comments re-extracted; if `toJS()` is `undefined` nothing else
changes; on a thrown error only the error message is recorded. -/
def handleEditorChange (updatingFromForm : Bool) (st : SyncState) (text : String)
    (outcome : ParseOutcome) : SyncState :=
  if updatingFromForm then st
  else
    let st1 := { st with yamlText := text }
    if jsTrim text = "" then
      { st1 with doc := none, data := .obj [], parseError := "", commentsMap := [] }
    else
      match outcome with
      | .threw msg => { st1 with parseError := msg }
      | .parsed contents js =>
        match js with
        | some parsed =>
          { st1 with
            doc := some contents
            data := parsed
            parseError := ""
            commentsMap :=
              match contents with
              | some c => extractComments (some c) "" []
              | none => [] }
        | none => st1

/-- The source's "empty object" test
`data && typeof data === 'object' && !Array.isArray(data) &&
Object.keys(data).length === 0`. -/
def isEmptyObj : Value → Bool
  | .obj [] => true
  | _ => false

/-- `dataToYaml` (YAMLVisualizer.tsx:369-396): serialize the form value.
The two external serializers are oracles: `serializeDoc` models
`yamlDocRef.current.toString()` after the contents were replaced by the
reconciled node (`none` = it threw, caught by the inner catch), and
`stringifyPlain` models `YAML.stringify(data, { indent: 2 })` (`none` = it
threw, caught by the outer catch, which returns `yamlText || ''` — equal to
the previous text, since `"" || ''` is `''`).  `docContents` is
`yamlDocRef.current` modelled by its contents, `none` when there is no
document. -/
def dataToYaml (serializeDoc : ANode → Option String) (stringifyPlain : Value → Option String)
    (data : Value) (preserveComments : Bool) (docContents : Option (Option ANode))
    (prevText : String) : String :=
  if isEmptyObj data then ""
  else
    let plainOut : String :=
      match stringifyPlain data with
      | some s => s
      | none => prevText
    match preserveComments, docContents with
    | true, some cts =>
      (match serializeDoc (updateNodeValue cts data) with
       | some s => s
       | none => plainOut)
    | _, _ => plainOut

/-! ## Derived definitions used by the verification -/

/-- A comment slot that is either absent or non-empty and not
whitespace-only (the well-behaved slots the amended extraction claim
quantifies over). -/
def NonBlankOpt (o : Option String) : Prop := ∀ s, o = some s → s ≠ "" ∧ jsTrim s ≠ ""

/-- One iteration of the `for (const key of sortedKeys)` loop body of
`sortObjectKeys`, as an optional binding: the binding the key contributes
to the rebuilt object. -/
def sortLookup (l : List (String × Value)) (k : String) : Option (String × Value) :=
  (lookupField l k).map (fun v => (k, sortObjectKeys v))

/-- Structural restatement of `utf16Units` used to reason about the
encoding one character at a time. -/
def unitsOfChars : List Char → List Nat
  | [] => []
  | c :: cs =>
    (if c.toNat < 65536 then [c.toNat]
     else [55296 + (c.toNat - 65536) / 1024, 56320 + (c.toNat - 65536) % 1024])
      ++ unitsOfChars cs

/-! ## Helper lemmas -/

theorem truthyStr_idem (o : Option String) : truthyStr (truthyStr o) = truthyStr o := by
  cases o with
  | none => rfl
  | some s =>
    by_cases h : s = "" <;> simp [truthyStr, h]

theorem truthyStr_none : truthyStr none = none := rfl

theorem jsOrAssign_none_right (o : Option String) : jsOrAssign o none = truthyStr o := by
  cases o with
  | none => rfl
  | some s => by_cases h : s = "" <;> simp [jsOrAssign, truthyStr, h]

theorem jsOrAssign_truthy_self (o : Option String) : jsOrAssign o (truthyStr o) = truthyStr o := by
  cases o with
  | none => rfl
  | some s => by_cases h : s = "" <;> simp [jsOrAssign, truthyStr, h]

theorem jsOrAssign_self (o : Option String) : jsOrAssign o o = o := by
  cases o with
  | none => rfl
  | some s => by_cases h : s = "" <;> simp [jsOrAssign, truthyStr, h]

theorem ANode.setComments_own (x : ANode) : x.setComments x.commentBefore x.comment = x := by
  cases x <;> rfl

theorem applyItemComments_self (x : ANode) : applyItemComments x x = x := by
  unfold applyItemComments
  rw [jsOrAssign_self, jsOrAssign_self, ANode.setComments_own]

/-- Replacing `null`/`undefined` old nodes: the source's default branch. -/
theorem updateNodeValue_none (v : Value) : updateNodeValue none v = valueToNode v := by
  cases v <;> rfl

/-- Custom induction principle for the nested inductive `Value`. -/
theorem Value.inductionOn {P : Value → Prop}
    (hnull : P .null) (hbool : ∀ b, P (.bool b)) (hnum : ∀ n, P (.num n))
    (hstr : ∀ s, P (.str s))
    (harr : ∀ l, (∀ x ∈ l, P x) → P (.arr l))
    (hobj : ∀ l, (∀ kv ∈ l, P kv.2) → P (.obj l)) :
    ∀ v, P v := by
  have H : ∀ n v, sizeOf v ≤ n → P v := by
    intro n
    induction n with
    | zero =>
      intro v hv
      cases v <;> simp_arith at hv
    | succ n ih =>
      intro v hv
      cases v with
      | null => exact hnull
      | bool b => exact hbool b
      | num m => exact hnum m
      | str s => exact hstr s
      | arr l =>
        refine harr l (fun x hx => ih x ?_)
        have h1 := List.sizeOf_lt_of_mem hx
        simp_arith at hv
        omega
      | obj l =>
        refine hobj l (fun kv hkv => ih kv.2 ?_)
        have h1 := List.sizeOf_lt_of_mem hkv
        obtain ⟨a, b⟩ := kv
        simp_arith at hv h1 ⊢
        omega
  exact fun v => H (sizeOf v) v (le_refl _)


/-! ## C4: parse failure recovery -/

/-- C4: for every raw text input whose parse throws, `handleEditorChange`
records the error message as the parse-error string and changes nothing
else (last good `data`, comment map and retained document are untouched,
and nothing is published to the form); moreover, for any parse outcome the
published `data` can only change when the parse succeeded with a defined
`toJS()` value, which is then published verbatim. -/
theorem c4_parse_failure_recovery (st : SyncState) (text msg : String)
    (h : jsTrim text ≠ "") :
    ((handleEditorChange false st text (.threw msg)).yamlText = text
      ∧ (handleEditorChange false st text (.threw msg)).parseError = msg
      ∧ (handleEditorChange false st text (.threw msg)).data = st.data
      ∧ (handleEditorChange false st text (.threw msg)).commentsMap = st.commentsMap
      ∧ (handleEditorChange false st text (.threw msg)).doc = st.doc)
    ∧ ∀ o : ParseOutcome, (handleEditorChange false st text o).data ≠ st.data →
        ∃ c v, o = .parsed c (some v) ∧ (handleEditorChange false st text o).data = v := by
  constructor
  · refine ⟨?_, ?_, ?_, ?_, ?_⟩ <;> simp [handleEditorChange, h]
  · intro o hne
    cases o with
    | threw m => simp [handleEditorChange, h] at hne
    | parsed c js =>
      cases js with
      | none => simp [handleEditorChange, h] at hne
      | some v => exact ⟨c, v, rfl, by simp [handleEditorChange, h]⟩

/-- Witness for C4 at a concrete invalid edit. -/
theorem c4_parse_failure_recovery_witness :
    jsTrim "a: [" ≠ "" ∧
    (((handleEditorChange false ⟨"old", "", Value.num 1, [("p", "c")], some none⟩ "a: [" (.threw "bad")).yamlText = "a: ["
      ∧ (handleEditorChange false ⟨"old", "", Value.num 1, [("p", "c")], some none⟩ "a: [" (.threw "bad")).parseError = "bad"
      ∧ (handleEditorChange false ⟨"old", "", Value.num 1, [("p", "c")], some none⟩ "a: [" (.threw "bad")).data = Value.num 1
      ∧ (handleEditorChange false ⟨"old", "", Value.num 1, [("p", "c")], some none⟩ "a: [" (.threw "bad")).commentsMap = [("p", "c")]
      ∧ (handleEditorChange false ⟨"old", "", Value.num 1, [("p", "c")], some none⟩ "a: [" (.threw "bad")).doc = some none)
     ∧ ∀ o : ParseOutcome,
        (handleEditorChange false ⟨"old", "", Value.num 1, [("p", "c")], some none⟩ "a: [" o).data
          ≠ Value.num 1 →
        ∃ c v, o = .parsed c (some v) ∧
          (handleEditorChange false ⟨"old", "", Value.num 1, [("p", "c")], some none⟩ "a: [" o).data
            = v) :=
  ⟨by decide, c4_parse_failure_recovery ⟨"old", "", Value.num 1, [("p", "c")], some none⟩ "a: [" "bad" (by decide)⟩

/-! ## C9: empty document asymmetry -/

/-- C9: serializing the empty mapping yields the empty string (for every
behaviour of the external serializers and every flag), and an empty or
whitespace-only editor text is accepted without a parse error, publishing
the empty mapping and clearing the comment map and the retained document. -/
theorem c9_empty_round_trip :
    (∀ (sd : ANode → Option String) (sp : Value → Option String) (pc : Bool)
        (dc : Option (Option ANode)) (prev : String),
        dataToYaml sd sp (Value.obj []) pc dc prev = "")
    ∧ ∀ (st : SyncState) (text : String) (o : ParseOutcome), jsTrim text = "" →
        handleEditorChange false st text o
          = ⟨text, "", Value.obj [], [], none⟩ := by
  constructor
  · intro sd sp pc dc prev
    simp [dataToYaml, isEmptyObj]
  · intro st text o h
    simp [handleEditorChange, h]

/-- Witness for C9 at the whitespace-only text `" \n"` and concrete oracles. -/
theorem c9_empty_round_trip_witness :
    dataToYaml (fun _ => some "z") (fun _ => some "{}\n") (Value.obj []) true (some none) "x" = ""
    ∧ jsTrim " \n" = ""
    ∧ handleEditorChange false ⟨"t", "e", Value.num 7, [("p", "c")], some none⟩ " \n" (.threw "m")
        = ⟨" \n", "", Value.obj [], [], none⟩ :=
  ⟨c9_empty_round_trip.1 _ _ _ _ _, by decide,
    c9_empty_round_trip.2 ⟨"t", "e", Value.num 7, [("p", "c")], some none⟩ " \n" (.threw "m") (by decide)⟩

/-! ## C7: serialization fails closed -/

/-- C7: when the comment-preserving serialization fails (the document
serializer returns nothing for the reconciled node), `dataToYaml` falls
back to the plain serialization; when that also fails it returns the
previously displayed text unchanged; and in every case the returned string
is complete output of one of the serializers, the previous text, or the
empty string for the empty mapping — never partial output, and (being a
total function) never an exception. -/
theorem c7_serialization_fails_closed (sd : ANode → Option String)
    (sp : Value → Option String) (data : Value) (dc : Option (Option ANode))
    (prev : String) :
    (∀ cts s, dc = some cts → sd (updateNodeValue cts data) = none →
        sp data = some s → isEmptyObj data = false →
        dataToYaml sd sp data true dc prev = s)
    ∧ (∀ cts, dc = some cts → sd (updateNodeValue cts data) = none →
        sp data = none → isEmptyObj data = false →
        dataToYaml sd sp data true dc prev = prev)
    ∧ ∀ pc : Bool,
        dataToYaml sd sp data pc dc prev = ""
        ∨ dataToYaml sd sp data pc dc prev = prev
        ∨ sp data = some (dataToYaml sd sp data pc dc prev)
        ∨ ∃ cts, dc = some cts
            ∧ sd (updateNodeValue cts data) = some (dataToYaml sd sp data pc dc prev) := by
  refine ⟨?_, ?_, ?_⟩
  · intro cts s hdc hsd hsp hne
    subst hdc
    simp [dataToYaml, hne, hsd, hsp]
  · intro cts hdc hsd hsp hne
    subst hdc
    simp [dataToYaml, hne, hsd, hsp]
  · intro pc
    by_cases hne : isEmptyObj data = true
    · left
      simp [dataToYaml, hne]
    · simp only [Bool.not_eq_true] at hne
      cases pc with
      | false =>
        cases hsp : sp data with
        | none => right; left; simp [dataToYaml, hne, hsp]
        | some s => right; right; left; simp [dataToYaml, hne, hsp]
      | true =>
        cases dc with
        | none =>
          cases hsp : sp data with
          | none => right; left; simp [dataToYaml, hne, hsp]
          | some s => right; right; left; simp [dataToYaml, hne, hsp]
        | some cts =>
          cases hsd : sd (updateNodeValue cts data) with
          | some s =>
            right; right; right
            exact ⟨cts, rfl, by simp [dataToYaml, hne, hsd]⟩
          | none =>
            cases hsp : sp data with
            | none => right; left; simp [dataToYaml, hne, hsp, hsd]
            | some s => right; right; left; simp [dataToYaml, hne, hsp, hsd]

/-- Witness for C7 with oracles that fail on the preserve path. -/
theorem c7_serialization_fails_closed_witness :
    ((some (none : Option ANode) : Option (Option ANode)) = some none
      ∧ (fun _ : ANode => (none : Option String)) (updateNodeValue none (Value.num 3)) = none
      ∧ (fun _ : Value => some "n: 3\n") (Value.num 3) = some "n: 3\n"
      ∧ isEmptyObj (Value.num 3) = false
      ∧ dataToYaml (fun _ => none) (fun _ => some "n: 3\n") (Value.num 3) true (some none) "prev" = "n: 3\n")
    ∧ ((fun _ : Value => (none : Option String)) (Value.num 3) = none
      ∧ dataToYaml (fun _ => none) (fun _ => none) (Value.num 3) true (some none) "prev" = "prev") :=
  ⟨⟨rfl, rfl, rfl, rfl,
    (c7_serialization_fails_closed (fun _ => none) (fun _ => some "n: 3\n") (Value.num 3)
      (some none) "prev").1 none "n: 3\n" rfl rfl rfl rfl⟩,
   ⟨rfl,
    (c7_serialization_fails_closed (fun _ => none) (fun _ => none) (Value.num 3)
      (some none) "prev").2.1 none rfl rfl rfl rfl⟩⟩

/-! ## Comment-freeness of fresh nodes -/

theorem commentFreeList_valueListToNodes (l : List Value)
    (h : ∀ x ∈ l, (valueToNode x).commentFree = true) :
    commentFreeList (valueListToNodes l) = true := by
  induction l with
  | nil => rfl
  | cons x xs ih =>
    simp only [valueListToNodes, commentFreeList, Bool.and_eq_true]
    exact ⟨h x (by simp), ih (fun y hy => h y (by simp [hy]))⟩

theorem commentFreePairs_valueFieldsToPairs (l : List (String × Value))
    (h : ∀ kv ∈ l, (valueToNode kv.2).commentFree = true) :
    commentFreePairs (valueFieldsToPairs l) = true := by
  induction l with
  | nil => rfl
  | cons kv kvs ih =>
    obtain ⟨k, v⟩ := kv
    have h1 := h (k, v) (by simp)
    have h2 := ih (fun y hy => h y (by simp [hy]))
    simp only [Prod.snd] at h1
    simp [valueFieldsToPairs, commentFreePairs, AKey.commentBefore, AKey.comment,
      AKey.commentAfter, h1, h2]

/-- Fresh nodes synthesized by `valueToNode` carry no comments anywhere. -/
theorem valueToNode_commentFree : ∀ v : Value, (valueToNode v).commentFree = true := by
  intro v
  induction v using Value.inductionOn with
  | hnull => rfl
  | hbool b => rfl
  | hnum n => rfl
  | hstr s => rfl
  | harr l ih =>
    have h1 := commentFreeList_valueListToNodes l ih
    simp [valueToNode, ANode.commentFree, h1]
  | hobj l ih =>
    have h1 := commentFreePairs_valueFieldsToPairs l ih
    simp [valueToNode, ANode.commentFree, h1]

/-! ## C5: comments on shape change -/

/-- C5 counterexample: for the old annotated node `cfg`'s mapping carrying
`commentBefore = " block"` and the new scalar value `"simple"`,
reconciliation returns a fresh comment-free scalar; the old node's
`commentBefore` is NOT copied onto it, contradicting the claim. -/
theorem c5_counterexample :
    updateNodeValue (some (ANode.amap [] (some " block") none none)) (Value.str "simple")
      = ANode.scalar (SVal.str "simple") none none none
    ∧ (ANode.amap [] (some " block") none none).commentBefore = some " block"
    ∧ (updateNodeValue (some (ANode.amap [] (some " block") none none))
        (Value.str "simple")).commentBefore
      ≠ (ANode.amap [] (some " block") none none).commentBefore := by
  refine ⟨rfl, rfl, ?_⟩
  intro h
  simp [updateNodeValue, valueToNode, ANode.commentBefore] at h

/-- C5 amended: reconciliation copies the old node's truthy
`commentBefore`/`comment` onto the fresh node only when the old node is a
scalar AND the new value is a non-null scalar; every other shape mismatch
(old mapping or sequence replaced by a value of a different shape, and old
scalar replaced by a container) synthesizes a fresh, fully comment-free
subtree, so a comment stored on the replaced mapping/sequence node itself
is lost together with all nested comments. -/
theorem c5_amended_shape_change :
    (∀ sv ocb oc oca (b : Bool),
        updateNodeValue (some (.scalar sv ocb oc oca)) (.bool b)
          = .scalar (.bool b) (truthyStr ocb) (truthyStr oc) none)
    ∧ (∀ sv ocb oc oca (n : Int),
        updateNodeValue (some (.scalar sv ocb oc oca)) (.num n)
          = .scalar (.num n) (truthyStr ocb) (truthyStr oc) none)
    ∧ (∀ sv ocb oc oca (s : String),
        updateNodeValue (some (.scalar sv ocb oc oca)) (.str s)
          = .scalar (.str s) (truthyStr ocb) (truthyStr oc) none)
    ∧ (∀ oldItems ocb oc oca (b : Bool),
        updateNodeValue (some (.amap oldItems ocb oc oca)) (.bool b) = valueToNode (.bool b))
    ∧ (∀ oldItems ocb oc oca (n : Int),
        updateNodeValue (some (.amap oldItems ocb oc oca)) (.num n) = valueToNode (.num n))
    ∧ (∀ oldItems ocb oc oca (s : String),
        updateNodeValue (some (.amap oldItems ocb oc oca)) (.str s) = valueToNode (.str s))
    ∧ (∀ oldItems ocb oc oca (vs : List Value),
        updateNodeValue (some (.amap oldItems ocb oc oca)) (.arr vs) = valueToNode (.arr vs))
    ∧ (∀ oldItems ocb oc oca (b : Bool),
        updateNodeValue (some (.seq oldItems ocb oc oca)) (.bool b) = valueToNode (.bool b))
    ∧ (∀ oldItems ocb oc oca (n : Int),
        updateNodeValue (some (.seq oldItems ocb oc oca)) (.num n) = valueToNode (.num n))
    ∧ (∀ oldItems ocb oc oca (s : String),
        updateNodeValue (some (.seq oldItems ocb oc oca)) (.str s) = valueToNode (.str s))
    ∧ (∀ oldItems ocb oc oca (fs : List (String × Value)),
        updateNodeValue (some (.seq oldItems ocb oc oca)) (.obj fs) = valueToNode (.obj fs))
    ∧ (∀ sv ocb oc oca (fs : List (String × Value)),
        updateNodeValue (some (.scalar sv ocb oc oca)) (.obj fs) = valueToNode (.obj fs))
    ∧ (∀ sv ocb oc oca (vs : List Value),
        updateNodeValue (some (.scalar sv ocb oc oca)) (.arr vs) = valueToNode (.arr vs))
    ∧ (∀ old : Option ANode, updateNodeValue old .null = valueToNode .null)
    ∧ ∀ v : Value, (valueToNode v).commentFree = true := by
  refine ⟨fun _ _ _ _ _ => rfl, fun _ _ _ _ _ => rfl, fun _ _ _ _ _ => rfl,
    fun _ _ _ _ _ => rfl, fun _ _ _ _ _ => rfl, fun _ _ _ _ _ => rfl,
    fun _ _ _ _ _ => rfl, fun _ _ _ _ _ => rfl, fun _ _ _ _ _ => rfl,
    fun _ _ _ _ _ => rfl, fun _ _ _ _ _ => rfl, fun _ _ _ _ _ => rfl,
    fun _ _ _ _ _ => rfl, ?_, valueToNode_commentFree⟩
  intro old
  match old with
  | none => rfl
  | some (.scalar _ _ _ _) => rfl
  | some (.seq _ _ _ _) => rfl
  | some (.amap _ _ _ _) => rfl

/-! ## Sequence reconciliation lemmas -/

theorem updateSeqItems_length (vs : List Value) :
    ∀ oldItems : List ANode, (updateSeqItems oldItems vs).length = vs.length := by
  induction vs with
  | nil => intro oldItems; cases oldItems <;> rfl
  | cons v vs ih =>
    intro oldItems
    cases oldItems with
    | nil => simp [updateSeqItems, ih]
    | cons o os => simp [updateSeqItems, ih]

theorem updateSeqItems_getElem (vs : List Value) :
    ∀ (oldItems : List ANode) (i : Nat) (v : Value), vs[i]? = some v →
      (updateSeqItems oldItems vs)[i]?
        = some (match oldItems[i]? with
            | some o => applyItemComments o (updateNodeValue (some o) v)
            | none => updateNodeValue none v) := by
  induction vs with
  | nil => intro oldItems i v hv; simp at hv
  | cons w ws ih =>
    intro oldItems i v hv
    cases i with
    | zero =>
      simp at hv
      subst hv
      cases oldItems with
      | nil => simp [updateSeqItems]
      | cons o os => simp [updateSeqItems]
    | succ n =>
      simp at hv
      cases oldItems with
      | nil =>
        have := ih [] n v (by simpa using hv)
        simpa [updateSeqItems] using this
      | cons o os =>
        have := ih os n v (by simpa using hv)
        simpa [updateSeqItems] using this

/-! ## C6: sequence reconciliation -/

/-- C6 counterexample: in a sequence, the reconciled element at an index
below `min(len(old), len(new))` is NOT (in general) the plain
reconciliation of the old element against the new element: after
reconciling, the sequence branch copies the old element's truthy comments
onto the result, which differs from plain reconciliation whenever the
element changed shape.  Here old element `{}` with `commentBefore = "c"`
against new element `"x"`: the sequence keeps `"c"`, plain reconciliation
drops it. -/
theorem c6_counterexample :
    updateNodeValue (some (ANode.seq [ANode.amap [] (some "c") none none] none none none))
        (Value.arr [Value.str "x"])
      = ANode.seq [ANode.scalar (SVal.str "x") (some "c") none none] none none none
    ∧ updateNodeValue (some (ANode.amap [] (some "c") none none)) (Value.str "x")
      = ANode.scalar (SVal.str "x") none none none
    ∧ ANode.scalar (SVal.str "x") (some "c") none none
      ≠ ANode.scalar (SVal.str "x") none none none := by
  refine ⟨rfl, rfl, ?_⟩
  intro h
  injection h with h1 h2
  cases h2

/-- C6 amended: reconciling an old sequence against a new array builds a
fresh sequence preserving the old sequence's truthy comments whose length
equals the new array's length; at each index below `min(len(old),
len(new))` the element is the reconciliation of the old element against
the new element FOLLOWED by re-copying the old element's truthy
`commentBefore`/`comment` onto it (a no-op unless the element changed
shape); at indices at or beyond `len(old)` the element is a fresh
comment-free subtree; old elements at indices at or beyond `len(new)` are
dropped. -/
theorem c6_amended_seq_reconcile (oldItems : List ANode) (ocb oc oca : Option String)
    (vs : List Value) :
    updateNodeValue (some (.seq oldItems ocb oc oca)) (.arr vs)
      = .seq (updateSeqItems oldItems vs) (truthyStr ocb) (truthyStr oc) none
    ∧ (updateSeqItems oldItems vs).length = vs.length
    ∧ (∀ (i : Nat) (v : Value) (o : ANode), vs[i]? = some v → oldItems[i]? = some o →
        (updateSeqItems oldItems vs)[i]?
          = some (applyItemComments o (updateNodeValue (some o) v)))
    ∧ ∀ (i : Nat) (v : Value), vs[i]? = some v → oldItems[i]? = (none : Option ANode) →
        (updateSeqItems oldItems vs)[i]? = some (valueToNode v)
        ∧ (valueToNode v).commentFree = true := by
  refine ⟨rfl, updateSeqItems_length vs oldItems, ?_, ?_⟩
  · intro i v o hv ho
    have := updateSeqItems_getElem vs oldItems i v hv
    rw [ho] at this
    exact this
  · intro i v hv ho
    have := updateSeqItems_getElem vs oldItems i v hv
    rw [ho] at this
    rw [updateNodeValue_none] at this
    exact ⟨this, valueToNode_commentFree v⟩

/-- Witness for C6 at a concrete two-element sequence whose new array has
three elements (one reconciled in place, one shape-changed, one fresh). -/
theorem c6_amended_seq_reconcile_witness :
    updateNodeValue
        (some (.seq [ANode.scalar (SVal.num 1) none (some " one") none,
            ANode.amap [] (some " m") none none] (some " top") none none))
        (.arr [Value.num 2, Value.str "s", Value.bool true])
      = .seq (updateSeqItems [ANode.scalar (SVal.num 1) none (some " one") none,
            ANode.amap [] (some " m") none none] [Value.num 2, Value.str "s", Value.bool true])
          (truthyStr (some " top")) (truthyStr none) none
    ∧ ([Value.num 2, Value.str "s", Value.bool true][0]? = some (Value.num 2))
    ∧ ([ANode.scalar (SVal.num 1) none (some " one") none,
        ANode.amap [] (some " m") none none][0]?
          = some (ANode.scalar (SVal.num 1) none (some " one") none))
    ∧ (updateSeqItems [ANode.scalar (SVal.num 1) none (some " one") none,
        ANode.amap [] (some " m") none none] [Value.num 2, Value.str "s", Value.bool true])[0]?
        = some (applyItemComments (ANode.scalar (SVal.num 1) none (some " one") none)
            (updateNodeValue (some (ANode.scalar (SVal.num 1) none (some " one") none))
              (Value.num 2)))
    ∧ ([Value.num 2, Value.str "s", Value.bool true][2]? = some (Value.bool true))
    ∧ ([ANode.scalar (SVal.num 1) none (some " one") none,
        ANode.amap [] (some " m") none none][2]? = (none : Option ANode))
    ∧ (updateSeqItems [ANode.scalar (SVal.num 1) none (some " one") none,
        ANode.amap [] (some " m") none none] [Value.num 2, Value.str "s", Value.bool true])[2]?
        = some (valueToNode (Value.bool true)) :=
  ⟨(c6_amended_seq_reconcile _ (some " top") none none _).1,
   rfl, rfl,
   (c6_amended_seq_reconcile [ANode.scalar (SVal.num 1) none (some " one") none,
      ANode.amap [] (some " m") none none] (some " top") none none
      [Value.num 2, Value.str "s", Value.bool true]).2.2.1 0 (Value.num 2)
      (ANode.scalar (SVal.num 1) none (some " one") none) rfl rfl,
   rfl, rfl,
   ((c6_amended_seq_reconcile [ANode.scalar (SVal.num 1) none (some " one") none,
      ANode.amap [] (some " m") none none] (some " top") none none
      [Value.num 2, Value.str "s", Value.bool true]).2.2.2 2 (Value.bool true) rfl rfl).1⟩

/-! ## C2: comment extraction precedence -/

theorem truthyStr_of_nonblank (o : Option String) (h : NonBlankOpt o) : truthyStr o = o := by
  cases o with
  | none => rfl
  | some s =>
    have := (h s rfl).1
    simp [truthyStr, this]

theorem firstTruthy_mem : ∀ (l : List (Option String)) (s : String),
    firstTruthy l = some s → some s ∈ l := by
  intro l
  induction l with
  | nil => intro s h; simp [firstTruthy] at h
  | cons o rest ih =>
    intro s h
    cases o with
    | none =>
      simp [firstTruthy, truthyStr] at h
      exact List.mem_cons_of_mem _ (ih s h)
    | some t =>
      by_cases ht : t = ""
      · subst ht
        simp [firstTruthy, truthyStr] at h
        exact List.mem_cons_of_mem _ (ih s h)
      · simp [firstTruthy, truthyStr, ht] at h
        subst h
        exact List.mem_cons_self _ _

theorem firstTruthy_cons_none (o : Option String) (rest : List (Option String))
    (h : truthyStr o = none) : firstTruthy (o :: rest) = firstTruthy rest := by
  simp [firstTruthy, h]

theorem firstTruthy_eq_none_head (l : List (Option String)) (o : Option String)
    (h : firstTruthy (o :: l) = none) : truthyStr o = none ∧ firstTruthy l = none := by
  cases ho : truthyStr o with
  | some s => simp [firstTruthy, ho] at h
  | none =>
    refine ⟨rfl, ?_⟩
    simpa [firstTruthy, ho] using h

theorem nonblank_of_truthyStr_none (o : Option String) (h : NonBlankOpt o)
    (ht : truthyStr o = none) : o = none := by
  cases o with
  | none => rfl
  | some s =>
    have h1 := (h s rfl).1
    simp [truthyStr, h1] at ht

theorem firstTruthy_append (l1 l2 : List (Option String)) :
    firstTruthy (l1 ++ l2)
      = match firstTruthy l1 with
        | some s => some s
        | none => firstTruthy l2 := by
  induction l1 with
  | nil => simp [firstTruthy]
  | cons o rest ih =>
    cases ho : truthyStr o with
    | some s => simp [firstTruthy, ho]
    | none => simp [firstTruthy, ho, ih]

theorem mapSet_nil (k t : String) : mapSet [] k t = [(k, t)] := by
  simp [mapSet]

theorem mapSet_cons_same (k x t : String) : mapSet [(k, x)] k t = [(k, t)] := by
  simp [mapSet]

theorem mapSet_single (name t : String) :
    ∀ m : CMap, (m = [] ∨ ∃ x, m = [(name, x)]) → mapSet m name t = [(name, t)] := by
  intro m hm
  rcases hm with rfl | ⟨x, rfl⟩
  · simp [mapSet]
  · simp [mapSet]

/-- C2 counterexample: a mapping entry whose key carries comment `"k"` and
whose scalar value carries comment `"v"`.  The claim's precedence (key
first) would record `"k"`; the code records `"v"`, because after the entry
loop records the key comment, the recursion into the scalar value
overwrites the same path with the value's own comment. -/
theorem c2_counterexample :
    extractComments
        (some (.amap [.mk ⟨"a", none, some "k", none⟩ none none none
          (some (.scalar (.num 1) none (some "v") none))] none none none)) "" []
      = [("a", "v")]
    ∧ extractComments
        (some (.amap [.mk ⟨"a", none, some "k", none⟩ none none none
          (some (.scalar (.num 1) none (some "v") none))] none none none)) "" []
      ≠ [("a", "k")] := by
  refine ⟨rfl, ?_⟩
  intro h
  rw [show extractComments
        (some (.amap [.mk ⟨"a", none, some "k", none⟩ none none none
          (some (.scalar (.num 1) none (some "v") none))] none none none)) "" []
      = [("a", "v")] from rfl] at h
  simp at h

/-- C2 amended: for a root mapping entry with a scalar value, when every
populated comment slot is non-empty and not whitespace-only, the recorded
comment is the VALUE's own comment (precedence `comment` >
`commentAfter` > `commentBefore`) if the value carries any, and only
otherwise the key-level comment (precedence key `comment` > key
`commentAfter` > pair `comment` > pair `commentAfter`) — the reverse of
the claimed key-over-value order; and a whitespace-only (truthy but blank)
comment in the key slot blocks all lower-precedence slots, recording
nothing, instead of being skipped. -/
theorem c2_amended_extraction_precedence :
    (∀ (name : String) (kcb kc kca pcb pc pca vcb vc vca mcb mc mca : Option String) (sv : SVal),
      name ≠ "" → NonBlankOpt kc → NonBlankOpt kca → NonBlankOpt pc → NonBlankOpt pca →
      NonBlankOpt vc → NonBlankOpt vca → NonBlankOpt vcb →
      extractComments (some (.amap [.mk ⟨name, kcb, kc, kca⟩ pcb pc pca
          (some (.scalar sv vcb vc vca))] mcb mc mca)) "" []
        = match firstTruthy [vc, vca, vcb] with
          | some s => [(name, jsTrim s)]
          | none =>
            match firstTruthy [kc, kca, pc, pca] with
            | some s => [(name, jsTrim s)]
            | none => [])
    ∧ ∀ (name ws : String) (pcb pc pca : Option String) (sv : SVal),
        name ≠ "" → ws ≠ "" → jsTrim ws = "" →
        extractComments (some (.amap [.mk ⟨name, none, some ws, none⟩ pcb pc pca
            (some (.scalar sv none none none))] none none none)) "" []
          = [] := by
  constructor
  · intro name kcb kc kca pcb pc pca vcb vc vca mcb mc mca sv hname hkc hkca hpc hpca hvc hvca hvcb
    have hApp : firstTruthy [vc, vca, vcb]
        = match firstTruthy [vc, vca] with
          | some s => some s
          | none => firstTruthy [vcb] := by
      have h := firstTruthy_append [vc, vca] [vcb]
      rw [show ([vc, vca] ++ [vcb] : List (Option String)) = [vc, vca, vcb] from rfl] at h
      exact h
    simp only [extractComments, extractCommentsCore, extractMapItems, AKey.comment,
      AKey.commentAfter, ANode.comment, ANode.commentAfter, ANode.commentBefore, if_pos rfl]
    cases hf1 : firstTruthy [kc, kca, pc, pca] with
    | some s1 =>
      have hmem := firstTruthy_mem _ _ hf1
      have hs1 : s1 ≠ "" ∧ jsTrim s1 ≠ "" := by
        simp at hmem
        rcases hmem with h | h | h | h
        · exact hkc s1 h.symm
        · exact hkca s1 h.symm
        · exact hpc s1 h.symm
        · exact hpca s1 h.symm
      cases hf2 : firstTruthy [vc, vca, vcb] with
      | some s2 =>
        have hmem2 := firstTruthy_mem _ _ hf2
        have hs2 : s2 ≠ "" ∧ jsTrim s2 ≠ "" := by
          simp at hmem2
          rcases hmem2 with h | h | h
          · exact hvc s2 h.symm
          · exact hvca s2 h.symm
          · exact hvcb s2 h.symm
        simp [hname, hs1.2, hs2.2, mapSet_nil, mapSet_cons_same]
      | none =>
        simp [hname, hs1.2, mapSet_nil]
    | none =>
      cases hf3 : firstTruthy [vc, vca] with
      | some s3 =>
        rw [hf3] at hApp
        have hmem3 := firstTruthy_mem _ _ hf3
        have hs3 : s3 ≠ "" ∧ jsTrim s3 ≠ "" := by
          simp at hmem3
          rcases hmem3 with h | h
          · exact hvc s3 h.symm
          · exact hvca s3 h.symm
        rw [hApp]
        simp [hname, hs3.2, mapSet_nil, mapSet_cons_same]
      | none =>
        rw [hf3] at hApp
        have hvcbn : firstTruthy [vcb] = truthyStr vcb := by
          cases hb : truthyStr vcb with
          | some s => simp [firstTruthy, hb]
          | none => simp [firstTruthy, hb]
        rw [hvcbn] at hApp
        cases hb : truthyStr vcb with
        | some sb =>
          rw [hb] at hApp
          have hbmem : vcb = some sb := by
            cases vcb with
            | none => simp [truthyStr] at hb
            | some t =>
              by_cases ht : t = ""
              · subst ht; simp [truthyStr] at hb
              · simp [truthyStr, ht] at hb
                rw [hb]
          have hsb : sb ≠ "" ∧ jsTrim sb ≠ "" := hvcb sb hbmem
          rw [hApp]
          simp [hname, hsb.2, mapSet_nil]
        | none =>
          rw [hb] at hApp
          rw [hApp]
  · intro name ws pcb pc pca sv hname hws1 hws2
    simp only [extractComments, extractCommentsCore, extractMapItems, AKey.comment,
      AKey.commentAfter, ANode.comment, ANode.commentAfter, ANode.commentBefore, if_pos rfl]
    simp [firstTruthy, truthyStr, hws1, hws2]

/-- Witness for C2: key comment `"k"` loses to value comment `"v"`, and a
whitespace-only key comment `" "` blocks the pair comment `"x"`. -/
theorem c2_amended_extraction_precedence_witness :
    ("a" : String) ≠ ""
    ∧ NonBlankOpt (some "k")
    ∧ NonBlankOpt (some "v")
    ∧ extractComments (some (.amap [.mk ⟨"a", none, some "k", none⟩ none none none
        (some (.scalar (.num 1) none (some "v") none))] none none none)) "" []
      = [("a", "v")]
    ∧ (" " : String) ≠ ""
    ∧ jsTrim " " = ""
    ∧ extractComments (some (.amap [.mk ⟨"a", none, some " ", none⟩ none (some "x") none
        (some (.scalar (.num 1) none none none))] none none none)) "" []
      = [] := by
  have hk : NonBlankOpt (some "k") := by
    intro s h
    injection h with h
    subst h
    exact ⟨by decide, by decide⟩
  have hv : NonBlankOpt (some "v") := by
    intro s h
    injection h with h
    subst h
    exact ⟨by decide, by decide⟩
  have hnone : NonBlankOpt none := by
    intro s h
    cases h
  refine ⟨by decide, hk, hv, ?_, by decide, by decide, ?_⟩
  · exact c2_amended_extraction_precedence.1 "a" none (some "k") none none none none none
      (some "v") none none none none (.num 1) (by decide) hk hnone hnone hnone hv hnone hnone
  · exact c2_amended_extraction_precedence.2 "a" " " none (some "x") none (.num 1)
      (by decide) (by decide) (by decide)

/-! ## C3: path round-trip -/

theorem lookupPair_name {items : List APair} {k : String} {p : APair}
    (h : lookupPair items k = some p) : p.key.name = k := by
  have := List.find?_some h
  simpa using this

theorem updateMapEntries_keys (oldItems : List APair) (fields : List (String × Value)) :
    (updateMapEntries oldItems fields).map (fun e => e.key.name) = fields.map Prod.fst := by
  induction fields with
  | nil => rfl
  | cons kv rest ih =>
    obtain ⟨k, v⟩ := kv
    cases hl : lookupPair oldItems k with
    | none =>
      simp only [updateMapEntries, hl, List.map_cons]
      rw [ih]
      rfl
    | some p =>
      have hn := lookupPair_name hl
      simp only [updateMapEntries, hl, List.map_cons]
      rw [ih]
      cases p
      simp_all [APair.key]

theorem updateMapEntries_getElem (fields : List (String × Value)) :
    ∀ (oldItems : List APair) (i : Nat) (k : String) (v : Value),
      fields[i]? = some (k, v) →
      (updateMapEntries oldItems fields)[i]?
        = some (match lookupPair oldItems k with
            | some p => APair.mk p.key (truthyStr p.commentBefore) (truthyStr p.comment) none
                (some (updateNodeValue p.value v))
            | none => APair.mk ⟨k, none, none, none⟩ none none none (some (valueToNode v))) := by
  induction fields with
  | nil => intro oldItems i k v hv; simp at hv
  | cons kv rest ih =>
    intro oldItems i k v hv
    obtain ⟨k0, v0⟩ := kv
    cases i with
    | zero =>
      have hk : k0 = k ∧ v0 = v := by simpa using hv
      obtain ⟨hk1, hk2⟩ := hk
      subst hk1
      subst hk2
      cases hl : lookupPair oldItems k0 with
      | none => simp [updateMapEntries, hl, updateNodeValue_none]
      | some p => simp [updateMapEntries, hl]
    | succ n =>
      simp at hv
      have := ih oldItems n k v (by simpa using hv)
      cases hl : lookupPair oldItems k0 with
      | none => simpa [updateMapEntries, hl] using this
      | some p => simpa [updateMapEntries, hl] using this

/-! ## C1: mapping reconciliation -/

/-- C1: reconciling an old mapping against a new object builds a fresh
mapping that keeps the old mapping's truthy comments and whose entry order
is exactly the new object's key order (so old keys absent from the new
object are dropped together with their entry comments); a new key absent
from the old mapping yields a fresh comment-free subtree with a fresh
comment-free key node; a key present in both reuses the old entry's key
node verbatim (all its comment slots), carries the old pair's truthy
comments, and its value is the reconciliation of the old entry's value
against the new value. -/
theorem c1_map_reconcile (oldItems : List APair) (ocb oc oca : Option String)
    (fields : List (String × Value)) :
    updateNodeValue (some (.amap oldItems ocb oc oca)) (.obj fields)
      = .amap (updateMapEntries oldItems fields) (truthyStr ocb) (truthyStr oc) none
    ∧ (updateMapEntries oldItems fields).map (fun e => e.key.name) = fields.map Prod.fst
    ∧ (∀ k : String, k ∉ fields.map Prod.fst →
        k ∉ (updateMapEntries oldItems fields).map (fun e => e.key.name))
    ∧ (∀ (i : Nat) (k : String) (v : Value), fields[i]? = some (k, v) →
        lookupPair oldItems k = none →
        (updateMapEntries oldItems fields)[i]?
          = some (APair.mk ⟨k, none, none, none⟩ none none none (some (valueToNode v)))
        ∧ (valueToNode v).commentFree = true)
    ∧ ∀ (i : Nat) (k : String) (v : Value) (p : APair), fields[i]? = some (k, v) →
        lookupPair oldItems k = some p →
        (updateMapEntries oldItems fields)[i]?
          = some (APair.mk p.key (truthyStr p.commentBefore) (truthyStr p.comment) none
              (some (updateNodeValue p.value v))) := by
  refine ⟨rfl, updateMapEntries_keys oldItems fields, ?_, ?_, ?_⟩
  · intro k hk
    rw [updateMapEntries_keys oldItems fields]
    exact hk
  · intro i k v hv hl
    have := updateMapEntries_getElem fields oldItems i k v hv
    rw [hl] at this
    exact ⟨this, valueToNode_commentFree v⟩
  · intro i k v p hv hl
    have := updateMapEntries_getElem fields oldItems i k v hv
    rw [hl] at this
    exact this

/-- Witness for C1: the comment-survival scenario `a: 1 # note`, `b: 2`
reconciled against `{a: 5, b: 2}` keeps `# note` on `a`'s value. -/
theorem c1_map_reconcile_witness :
    ([(("a" : String), Value.num 5), ("b", Value.num 2)][0]? = some ("a", Value.num 5))
    ∧ lookupPair
        [APair.mk ⟨"a", none, none, none⟩ none none none
            (some (.scalar (.num 1) none (some " note") none)),
         APair.mk ⟨"b", none, none, none⟩ none none none
            (some (.scalar (.num 2) none none none))] "a"
      = some (APair.mk ⟨"a", none, none, none⟩ none none none
          (some (.scalar (.num 1) none (some " note") none)))
    ∧ (updateMapEntries
        [APair.mk ⟨"a", none, none, none⟩ none none none
            (some (.scalar (.num 1) none (some " note") none)),
         APair.mk ⟨"b", none, none, none⟩ none none none
            (some (.scalar (.num 2) none none none))]
        [("a", Value.num 5), ("b", Value.num 2)])[0]?
      = some (APair.mk ⟨"a", none, none, none⟩ (truthyStr none) (truthyStr none) none
          (some (updateNodeValue (some (.scalar (.num 1) none (some " note") none))
            (Value.num 5))))
    ∧ updateNodeValue (some (.scalar (.num 1) none (some " note") none)) (Value.num 5)
      = .scalar (.num 5) none (some " note") none :=
  ⟨rfl, rfl,
   (c1_map_reconcile
      [APair.mk ⟨"a", none, none, none⟩ none none none
          (some (.scalar (.num 1) none (some " note") none)),
       APair.mk ⟨"b", none, none, none⟩ none none none
          (some (.scalar (.num 2) none none none))] none none none
      [("a", Value.num 5), ("b", Value.num 2)]).2.2.2.2 0 "a" (Value.num 5)
      (APair.mk ⟨"a", none, none, none⟩ none none none
        (some (.scalar (.num 1) none (some " note") none))) rfl rfl,
   rfl⟩

/-! ## Normality and stability lemmas for idempotence -/

theorem truthyStr_eq_some {o : Option String} {s : String} (h : truthyStr o = some s) :
    o = some s ∧ s ≠ "" := by
  cases o with
  | none => simp [truthyStr] at h
  | some t =>
    by_cases ht : t = ""
    · subst ht; simp [truthyStr] at h
    · simp [truthyStr, ht] at h
      subst h
      exact ⟨rfl, ht⟩

theorem jsOrAssign_norm (src tgt : Option String) (h : truthyStr tgt = tgt) :
    truthyStr (jsOrAssign src tgt) = jsOrAssign src tgt := by
  cases hs : truthyStr src with
  | some s =>
    have h2 := (truthyStr_eq_some hs).2
    simp only [jsOrAssign, hs]
    simp [truthyStr, h2]
  | none =>
    simp only [jsOrAssign, hs]
    exact h

theorem setComments_commentBefore (x : ANode) (cb c : Option String) :
    (x.setComments cb c).commentBefore = cb := by
  cases x <;> rfl

theorem setComments_comment (x : ANode) (cb c : Option String) :
    (x.setComments cb c).comment = c := by
  cases x <;> rfl

theorem setComments_commentAfter (x : ANode) (cb c : Option String) :
    (x.setComments cb c).commentAfter = x.commentAfter := by
  cases x <;> rfl

theorem wfFields_mem {l : List (String × Value)} (h : Value.wfFields l = true) :
    ∀ kv ∈ l, kv.2.wf = true := by
  induction l with
  | nil => intro kv hkv; simp at hkv
  | cons p rest ih =>
    obtain ⟨a, b⟩ := p
    simp only [Value.wfFields, Bool.and_eq_true] at h
    intro kv hkv
    rcases List.mem_cons.mp hkv with rfl | hkv
    · exact h.1
    · exact ih h.2 kv hkv

theorem wfElems_mem {l : List Value} (h : Value.wfElems l = true) :
    ∀ x ∈ l, x.wf = true := by
  induction l with
  | nil => intro x hx; simp at hx
  | cons a rest ih =>
    simp only [Value.wfElems, Bool.and_eq_true] at h
    intro x hx
    rcases List.mem_cons.mp hx with rfl | hx
    · exact h.1
    · exact ih h.2 x hx

theorem updateMapEntries_length (oldItems : List APair) (fields : List (String × Value)) :
    (updateMapEntries oldItems fields).length = fields.length := by
  have h := congrArg List.length (updateMapEntries_keys oldItems fields)
  simpa using h

theorem valueFieldsToPairs_keys (l : List (String × Value)) :
    (valueFieldsToPairs l).map (fun e => e.key.name) = l.map Prod.fst := by
  induction l with
  | nil => rfl
  | cons kv rest ih =>
    obtain ⟨k, v⟩ := kv
    simp only [valueFieldsToPairs, List.map_cons, ih]
    rfl

theorem valueFieldsToPairs_length (l : List (String × Value)) :
    (valueFieldsToPairs l).length = l.length := by
  have h := congrArg List.length (valueFieldsToPairs_keys l)
  simpa using h

theorem valueFieldsToPairs_getElem (l : List (String × Value)) :
    ∀ (i : Nat) (k : String) (v : Value), l[i]? = some (k, v) →
      (valueFieldsToPairs l)[i]?
        = some (APair.mk ⟨k, none, none, none⟩ none none none (some (valueToNode v))) := by
  induction l with
  | nil => intro i k v h; simp at h
  | cons kv rest ih =>
    intro i k v h
    obtain ⟨k0, v0⟩ := kv
    cases i with
    | zero =>
      have hk : k0 = k ∧ v0 = v := by simpa using h
      obtain ⟨rfl, rfl⟩ := hk
      simp [valueFieldsToPairs]
    | succ n =>
      simp only [valueFieldsToPairs]
      simpa using ih n k v (by simpa using h)

theorem valueListToNodes_length (l : List Value) :
    (valueListToNodes l).length = l.length := by
  induction l with
  | nil => rfl
  | cons v rest ih => simp [valueListToNodes, ih]

theorem valueListToNodes_getElem (l : List Value) :
    ∀ (i : Nat) (v : Value), l[i]? = some v →
      (valueListToNodes l)[i]? = some (valueToNode v) := by
  induction l with
  | nil => intro i v h; simp at h
  | cons w rest ih =>
    intro i v h
    cases i with
    | zero =>
      have hw : w = v := by simpa using h
      subst hw
      simp [valueListToNodes]
    | succ n =>
      simp only [valueListToNodes]
      simpa using ih n v (by simpa using h)

theorem nodupKeysB_head {k : String} {ks : List String} (h : nodupKeysB (k :: ks) = true) :
    (∀ k2 ∈ ks, k2 ≠ k) ∧ nodupKeysB ks = true := by
  simp only [nodupKeysB, Bool.and_eq_true, Bool.not_eq_true'] at h
  refine ⟨?_, h.2⟩
  intro k2 hk2 he
  subst he
  have helem : List.elem k2 ks = true := List.elem_iff.mpr hk2
  have hfalse : List.elem k2 ks = false := by
    have h1 := h.1
    simpa [List.contains] using h1
  rw [helem] at hfalse
  cases hfalse

theorem lookupPair_aligned (es : List APair) :
    ∀ (keys : List String), es.map (fun e => e.key.name) = keys →
      nodupKeysB keys = true →
      ∀ (i : Nat) (k : String), keys[i]? = some k →
        ∃ p : APair, es[i]? = some p ∧ lookupPair es k = some p := by
  induction es with
  | nil =>
    intro keys hk _ i k hik
    subst hk
    simp at hik
  | cons p0 es ih =>
    intro keys hk hnd i k hik
    subst hk
    simp only [List.map_cons] at hnd hik
    obtain ⟨hne, hnd'⟩ := nodupKeysB_head hnd
    cases i with
    | zero =>
      have hk0 : p0.key.name = k := by simpa using hik
      refine ⟨p0, by simp, ?_⟩
      unfold lookupPair
      rw [List.reverse_cons, List.find?_append]
      have hnone : List.find? (fun p => p.key.name = k) es.reverse = none := by
        rw [List.find?_eq_none]
        intro x hx
        have hxm : x ∈ es := by simpa using hx
        have : x.key.name ∈ es.map (fun e => e.key.name) := List.mem_map_of_mem _ hxm
        have hne2 := hne x.key.name this
        simp [hk0 ▸ hne2]
      rw [hnone]
      simp [hk0]
    | succ n =>
      have hik' : (es.map (fun e => e.key.name))[n]? = some k := by simpa using hik
      obtain ⟨p, hp1, hp2⟩ := ih (es.map (fun e => e.key.name)) rfl hnd' n k hik'
      refine ⟨p, by simpa using hp1, ?_⟩
      unfold lookupPair
      rw [List.reverse_cons, List.find?_append]
      unfold lookupPair at hp2
      rw [hp2]
      rfl

theorem updateMapEntries_self (es : List APair) :
    ∀ (fl : List (String × Value)) (es2 : List APair),
      fl.length = es2.length →
      (∀ (i : Nat) (k : String) (v : Value), fl[i]? = some (k, v) →
        ∃ p : APair, es2[i]? = some p ∧ lookupPair es k = some p
          ∧ truthyStr p.commentBefore = p.commentBefore
          ∧ truthyStr p.comment = p.comment
          ∧ p.commentAfter = none
          ∧ ∃ n : ANode, p.value = some n ∧ updateNodeValue (some n) v = n) →
      updateMapEntries es fl = es2 := by
  intro fl
  induction fl with
  | nil =>
    intro es2 hlen _
    cases es2 with
    | nil => rfl
    | cons p es2 => simp at hlen
  | cons kv rest ih =>
    intro es2 hlen hstable
    obtain ⟨k, v⟩ := kv
    cases es2 with
    | nil => simp at hlen
    | cons p es2 =>
      obtain ⟨p', hp0, hlk, hcb, hc, hca, n, hval, hfix⟩ := hstable 0 k v (by simp)
      have hpp : p = p' := by simpa using hp0
      subst hpp
      have htail := ih es2 (by simpa using hlen)
        (fun i k2 v2 h2 => by
          obtain ⟨q, hq0, hqrest⟩ := hstable (i + 1) k2 v2 (by simpa using h2)
          exact ⟨q, by simpa using hq0, hqrest⟩)
      obtain ⟨pk, pcb, pc, pca, pv⟩ := p
      simp only [APair.commentBefore, APair.comment, APair.commentAfter, APair.value]
        at hcb hc hca hval
      subst hca
      subst hval
      simp only [updateMapEntries, hlk, APair.key, APair.value, APair.commentBefore,
        APair.comment]
      rw [hcb, hc, hfix, htail]

theorem updateSeqItems_self :
    ∀ (vs : List Value) (xs : List ANode),
      vs.length = xs.length →
      (∀ (i : Nat) (v : Value) (x : ANode), vs[i]? = some v → xs[i]? = some x →
        applyItemComments x (updateNodeValue (some x) v) = x) →
      updateSeqItems xs vs = xs := by
  intro vs
  induction vs with
  | nil =>
    intro xs hlen _
    cases xs with
    | nil => rfl
    | cons x xs => simp at hlen
  | cons v rest ih =>
    intro xs hlen hstable
    cases xs with
    | nil => simp at hlen
    | cons x xs =>
      simp only [updateSeqItems]
      rw [hstable 0 v x (by simp) (by simp)]
      rw [ih xs (by simpa using hlen)
        (fun i v2 x2 h1 h2 => hstable (i + 1) v2 x2 (by simpa using h1) (by simpa using h2))]

theorem jsOrAssign_truthy_truthy (o : Option String) :
    jsOrAssign (truthyStr o) (truthyStr o) = truthyStr o := by
  have h := jsOrAssign_truthy_self (truthyStr o)
  rwa [truthyStr_idem] at h

theorem updateNodeValue_norm (old : Option ANode) (v : Value) :
    truthyStr (updateNodeValue old v).commentBefore = (updateNodeValue old v).commentBefore
    ∧ truthyStr (updateNodeValue old v).comment = (updateNodeValue old v).comment
    ∧ (updateNodeValue old v).commentAfter = none := by
  rcases old with _ | o
  · rw [updateNodeValue_none]
    cases v <;>
      simp [valueToNode, ANode.commentBefore, ANode.comment, ANode.commentAfter, truthyStr_none]
  · cases o <;> cases v <;>
      simp [updateNodeValue, valueToNode, ANode.commentBefore, ANode.comment,
        ANode.commentAfter, truthyStr_idem, truthyStr_none]

/-- Core of the reconciliation idempotence: under well-formedness of the
value (no duplicate mapping keys anywhere), a second reconciliation against
the same value is the identity, both for plain nodes and for sequence items
(which receive an extra comment transfer). -/
theorem updateNodeValue_second_pass (v : Value) :
    v.wf = true →
      (∀ old : Option ANode,
        updateNodeValue (some (updateNodeValue old v)) v = updateNodeValue old v)
      ∧ ∀ o : ANode,
          applyItemComments (applyItemComments o (updateNodeValue (some o) v))
              (updateNodeValue (some (applyItemComments o (updateNodeValue (some o) v))) v)
            = applyItemComments o (updateNodeValue (some o) v) := by
  induction v using Value.inductionOn with
  | hnull =>
    intro _
    have hnul : ∀ x : Option ANode, updateNodeValue x .null = valueToNode .null := by
      intro x
      rcases x with _ | o
      · rfl
      · cases o <;> rfl
    constructor
    · intro old
      rw [hnul, hnul]
    · intro o
      cases o <;>
        simp [hnul, valueToNode, applyItemComments, ANode.setComments,
          ANode.commentBefore, ANode.comment, jsOrAssign_none_right, jsOrAssign_truthy_self,
          truthyStr_idem, truthyStr_none]
  | hbool b =>
    intro _
    constructor
    · intro old
      rcases old with _ | o
      · rfl
      · cases o <;>
          simp [updateNodeValue, valueToNode, truthyStr_idem, truthyStr_none]
    · intro o
      cases o <;>
        simp [updateNodeValue, valueToNode, applyItemComments, ANode.setComments,
          ANode.commentBefore, ANode.comment, jsOrAssign_none_right, jsOrAssign_truthy_self,
          jsOrAssign_truthy_truthy, truthyStr_idem, truthyStr_none]
  | hnum n =>
    intro _
    constructor
    · intro old
      rcases old with _ | o
      · rfl
      · cases o <;>
          simp [updateNodeValue, valueToNode, truthyStr_idem, truthyStr_none]
    · intro o
      cases o <;>
        simp [updateNodeValue, valueToNode, applyItemComments, ANode.setComments,
          ANode.commentBefore, ANode.comment, jsOrAssign_none_right, jsOrAssign_truthy_self,
          jsOrAssign_truthy_truthy, truthyStr_idem, truthyStr_none]
  | hstr s =>
    intro _
    constructor
    · intro old
      rcases old with _ | o
      · rfl
      · cases o <;>
          simp [updateNodeValue, valueToNode, truthyStr_idem, truthyStr_none]
    · intro o
      cases o <;>
        simp [updateNodeValue, valueToNode, applyItemComments, ANode.setComments,
          ANode.commentBefore, ANode.comment, jsOrAssign_none_right, jsOrAssign_truthy_self,
          jsOrAssign_truthy_truthy, truthyStr_idem, truthyStr_none]
  | harr l ihl =>
    intro hwf
    have hvw : ∀ x ∈ l, x.wf = true := wfElems_mem (by simpa [Value.wf] using hwf)
    have hIH := fun x hx => ihl x hx (hvw x hx)
    have hUSI : ∀ xs : List ANode,
        updateSeqItems (updateSeqItems xs l) l = updateSeqItems xs l := by
      intro xs
      apply updateSeqItems_self l (updateSeqItems xs l) ((updateSeqItems_length l xs).symm)
      intro i v x hv hx
      have hmem : v ∈ l := List.getElem?_mem hv
      have hgot := updateSeqItems_getElem l xs i v hv
      rw [hgot] at hx
      have hxe : (match xs[i]? with
          | some o => applyItemComments o (updateNodeValue (some o) v)
          | none => updateNodeValue none v) = x := by simpa using hx
      cases hxs : xs[i]? with
      | some o =>
        rw [hxs] at hxe
        rw [← hxe]
        exact (hIH v hmem).2 o
      | none =>
        rw [hxs] at hxe
        rw [updateNodeValue_none] at hxe
        rw [← hxe]
        have h1 : updateNodeValue (some (valueToNode v)) v = valueToNode v := by
          have h2 := (hIH v hmem).1 none
          rwa [updateNodeValue_none] at h2
        rw [h1, applyItemComments_self]
    have hVL : updateSeqItems (valueListToNodes l) l = valueListToNodes l := by
      apply updateSeqItems_self l (valueListToNodes l) ((valueListToNodes_length l).symm)
      intro i v x hv hx
      have hmem : v ∈ l := List.getElem?_mem hv
      have hgot := valueListToNodes_getElem l i v hv
      rw [hgot] at hx
      have hxe : valueToNode v = x := by simpa using hx
      rw [← hxe]
      have h1 : updateNodeValue (some (valueToNode v)) v = valueToNode v := by
        have h2 := (hIH v hmem).1 none
        rwa [updateNodeValue_none] at h2
      rw [h1, applyItemComments_self]
    constructor
    · intro old
      rcases old with _ | o
      · rw [updateNodeValue_none]
        simp only [valueToNode, updateNodeValue]
        rw [hVL]
        simp [truthyStr_none]
      · cases o with
        | seq items ocb oc oca =>
          simp only [updateNodeValue]
          rw [hUSI items]
          simp [truthyStr_idem]
        | scalar sv ocb oc oca =>
          have h1 : updateNodeValue (some (.scalar sv ocb oc oca)) (.arr l)
              = valueToNode (.arr l) := rfl
          rw [h1]
          simp only [valueToNode, updateNodeValue]
          rw [hVL]
          simp [truthyStr_none]
        | amap items ocb oc oca =>
          have h1 : updateNodeValue (some (.amap items ocb oc oca)) (.arr l)
              = valueToNode (.arr l) := rfl
          rw [h1]
          simp only [valueToNode, updateNodeValue]
          rw [hVL]
          simp [truthyStr_none]
    · intro o
      cases o with
      | seq items ocb oc oca =>
        have hr : applyItemComments (.seq items ocb oc oca)
            (updateNodeValue (some (.seq items ocb oc oca)) (.arr l))
            = .seq (updateSeqItems items l) (truthyStr ocb) (truthyStr oc) none := by
          simp [updateNodeValue, applyItemComments, ANode.setComments, ANode.commentBefore,
            ANode.comment, jsOrAssign_truthy_self]
        rw [hr]
        have h2 : updateNodeValue
            (some (.seq (updateSeqItems items l) (truthyStr ocb) (truthyStr oc) none)) (.arr l)
            = .seq (updateSeqItems items l) (truthyStr ocb) (truthyStr oc) none := by
          simp only [updateNodeValue]
          rw [hUSI items]
          simp [truthyStr_idem]
        rw [h2, applyItemComments_self]
      | scalar sv ocb oc oca =>
        have hr : applyItemComments (.scalar sv ocb oc oca)
            (updateNodeValue (some (.scalar sv ocb oc oca)) (.arr l))
            = .seq (valueListToNodes l) (truthyStr ocb) (truthyStr oc) none := by
          simp [updateNodeValue, valueToNode, applyItemComments, ANode.setComments,
            ANode.commentBefore, ANode.comment, jsOrAssign_none_right]
        rw [hr]
        have h2 : updateNodeValue
            (some (.seq (valueListToNodes l) (truthyStr ocb) (truthyStr oc) none)) (.arr l)
            = .seq (valueListToNodes l) (truthyStr ocb) (truthyStr oc) none := by
          simp only [updateNodeValue]
          rw [hVL]
          simp [truthyStr_idem]
        rw [h2, applyItemComments_self]
      | amap items ocb oc oca =>
        have hr : applyItemComments (.amap items ocb oc oca)
            (updateNodeValue (some (.amap items ocb oc oca)) (.arr l))
            = .seq (valueListToNodes l) (truthyStr ocb) (truthyStr oc) none := by
          simp [updateNodeValue, valueToNode, applyItemComments, ANode.setComments,
            ANode.commentBefore, ANode.comment, jsOrAssign_none_right]
        rw [hr]
        have h2 : updateNodeValue
            (some (.seq (valueListToNodes l) (truthyStr ocb) (truthyStr oc) none)) (.arr l)
            = .seq (valueListToNodes l) (truthyStr ocb) (truthyStr oc) none := by
          simp only [updateNodeValue]
          rw [hVL]
          simp [truthyStr_idem]
        rw [h2, applyItemComments_self]
  | hobj l ihl =>
    intro hwf
    have hw : nodupKeysB (l.map Prod.fst) = true ∧ Value.wfFields l = true := by
      simpa [Value.wf] using hwf
    have hIH := fun kv hkv => ihl kv hkv (wfFields_mem hw.2 kv hkv)
    have hUME : ∀ es : List APair,
        updateMapEntries (updateMapEntries es l) l = updateMapEntries es l := by
      intro es
      apply updateMapEntries_self (updateMapEntries es l) l (updateMapEntries es l)
        ((updateMapEntries_length es l).symm)
      intro i k v hv
      have hmem : (k, v) ∈ l := List.getElem?_mem hv
      have hgot := updateMapEntries_getElem l es i k v hv
      have hkey : (l.map Prod.fst)[i]? = some k := by
        rw [List.getElem?_map, hv]
        rfl
      obtain ⟨p, hp1, hp2⟩ := lookupPair_aligned (updateMapEntries es l) (l.map Prod.fst)
        (updateMapEntries_keys es l) hw.1 i k hkey
      rw [hgot] at hp1
      have hpe : (match lookupPair es k with
          | some q => APair.mk q.key (truthyStr q.commentBefore) (truthyStr q.comment) none
              (some (updateNodeValue q.value v))
          | none => APair.mk ⟨k, none, none, none⟩ none none none (some (valueToNode v)))
          = p := by
        simpa using hp1
      refine ⟨p, by rw [hgot, hpe], hp2, ?_⟩
      rw [← hpe]
      cases hlk : lookupPair es k with
      | some q =>
        refine ⟨truthyStr_idem _, truthyStr_idem _, rfl, updateNodeValue q.value v, rfl, ?_⟩
        exact (hIH (k, v) hmem).1 q.value
      | none =>
        refine ⟨rfl, rfl, rfl, valueToNode v, rfl, ?_⟩
        have h2 := (hIH (k, v) hmem).1 none
        rwa [updateNodeValue_none] at h2
    have hVF : updateMapEntries (valueFieldsToPairs l) l = valueFieldsToPairs l := by
      apply updateMapEntries_self (valueFieldsToPairs l) l (valueFieldsToPairs l)
        ((valueFieldsToPairs_length l).symm)
      intro i k v hv
      have hmem : (k, v) ∈ l := List.getElem?_mem hv
      have hgot := valueFieldsToPairs_getElem l i k v hv
      have hkey : (l.map Prod.fst)[i]? = some k := by
        rw [List.getElem?_map, hv]
        rfl
      obtain ⟨p, hp1, hp2⟩ := lookupPair_aligned (valueFieldsToPairs l) (l.map Prod.fst)
        (valueFieldsToPairs_keys l) hw.1 i k hkey
      rw [hgot] at hp1
      have hpe : APair.mk ⟨k, none, none, none⟩ none none none (some (valueToNode v)) = p := by
        simpa using hp1
      refine ⟨p, by rw [hgot, hpe], hp2, ?_⟩
      rw [← hpe]
      refine ⟨rfl, rfl, rfl, valueToNode v, rfl, ?_⟩
      have h2 := (hIH (k, v) hmem).1 none
      rwa [updateNodeValue_none] at h2
    constructor
    · intro old
      rcases old with _ | o
      · rw [updateNodeValue_none]
        simp only [valueToNode, updateNodeValue]
        rw [hVF]
        simp [truthyStr_none]
      · cases o with
        | amap items ocb oc oca =>
          simp only [updateNodeValue]
          rw [hUME items]
          simp [truthyStr_idem]
        | scalar sv ocb oc oca =>
          have h1 : updateNodeValue (some (.scalar sv ocb oc oca)) (.obj l)
              = valueToNode (.obj l) := rfl
          rw [h1]
          simp only [valueToNode, updateNodeValue]
          rw [hVF]
          simp [truthyStr_none]
        | seq items ocb oc oca =>
          have h1 : updateNodeValue (some (.seq items ocb oc oca)) (.obj l)
              = valueToNode (.obj l) := rfl
          rw [h1]
          simp only [valueToNode, updateNodeValue]
          rw [hVF]
          simp [truthyStr_none]
    · intro o
      cases o with
      | amap items ocb oc oca =>
        have hr : applyItemComments (.amap items ocb oc oca)
            (updateNodeValue (some (.amap items ocb oc oca)) (.obj l))
            = .amap (updateMapEntries items l) (truthyStr ocb) (truthyStr oc) none := by
          simp [updateNodeValue, applyItemComments, ANode.setComments, ANode.commentBefore,
            ANode.comment, jsOrAssign_truthy_self]
        rw [hr]
        have h2 : updateNodeValue
            (some (.amap (updateMapEntries items l) (truthyStr ocb) (truthyStr oc) none)) (.obj l)
            = .amap (updateMapEntries items l) (truthyStr ocb) (truthyStr oc) none := by
          simp only [updateNodeValue]
          rw [hUME items]
          simp [truthyStr_idem]
        rw [h2, applyItemComments_self]
      | scalar sv ocb oc oca =>
        have hr : applyItemComments (.scalar sv ocb oc oca)
            (updateNodeValue (some (.scalar sv ocb oc oca)) (.obj l))
            = .amap (valueFieldsToPairs l) (truthyStr ocb) (truthyStr oc) none := by
          simp [updateNodeValue, valueToNode, applyItemComments, ANode.setComments,
            ANode.commentBefore, ANode.comment, jsOrAssign_none_right]
        rw [hr]
        have h2 : updateNodeValue
            (some (.amap (valueFieldsToPairs l) (truthyStr ocb) (truthyStr oc) none)) (.obj l)
            = .amap (valueFieldsToPairs l) (truthyStr ocb) (truthyStr oc) none := by
          simp only [updateNodeValue]
          rw [hVF]
          simp [truthyStr_idem]
        rw [h2, applyItemComments_self]
      | seq items ocb oc oca =>
        have hr : applyItemComments (.seq items ocb oc oca)
            (updateNodeValue (some (.seq items ocb oc oca)) (.obj l))
            = .amap (valueFieldsToPairs l) (truthyStr ocb) (truthyStr oc) none := by
          simp [updateNodeValue, valueToNode, applyItemComments, ANode.setComments,
            ANode.commentBefore, ANode.comment, jsOrAssign_none_right]
        rw [hr]
        have h2 : updateNodeValue
            (some (.amap (valueFieldsToPairs l) (truthyStr ocb) (truthyStr oc) none)) (.obj l)
            = .amap (valueFieldsToPairs l) (truthyStr ocb) (truthyStr oc) none := by
          simp only [updateNodeValue]
          rw [hVF]
          simp [truthyStr_idem]
        rw [h2, applyItemComments_self]

/-- C8: reconciliation is idempotent — for any well-formed plain value
(no duplicate mapping keys at any level) and any retained document node,
running `updateNodeValue` a second time against the node produced by the
first run returns that node unchanged, so the document node — and hence
its serialization — is identical after the second pass. -/
theorem c8_reconcile_idempotent (v : Value) (old : Option ANode) (hwf : v.wf = true) :
    updateNodeValue (some (updateNodeValue old v)) v = updateNodeValue old v :=
  (updateNodeValue_second_pass v hwf).1 old

theorem c8_reconcile_idempotent_witness :
    (Value.obj [("a", Value.num 5), ("b", Value.arr [Value.str "x"])]).wf = true
    ∧ updateNodeValue
        (some (updateNodeValue
          (some (ANode.amap
            [APair.mk ⟨"a", none, none, none⟩ (some "kc") none none
              (some (ANode.scalar (SVal.num 1) none (some " note") none))]
            (some "top") none none))
          (Value.obj [("a", Value.num 5), ("b", Value.arr [Value.str "x"])])))
        (Value.obj [("a", Value.num 5), ("b", Value.arr [Value.str "x"])])
      = updateNodeValue
          (some (ANode.amap
            [APair.mk ⟨"a", none, none, none⟩ (some "kc") none none
              (some (ANode.scalar (SVal.num 1) none (some " note") none))]
            (some "top") none none))
          (Value.obj [("a", Value.num 5), ("b", Value.arr [Value.str "x"])]) :=
  ⟨by decide, c8_reconcile_idempotent
    (Value.obj [("a", Value.num 5), ("b", Value.arr [Value.str "x"])])
    (some (ANode.amap
      [APair.mk ⟨"a", none, none, none⟩ (some "kc") none none
        (some (ANode.scalar (SVal.num 1) none (some " note") none))]
      (some "top") none none))
    (by decide)⟩

theorem lexLeNat_total : ∀ as bs, (lexLeNat as bs || lexLeNat bs as) = true := by
  intro as
  induction as with
  | nil => intro bs; simp [lexLeNat]
  | cons a as ih =>
    intro bs
    cases bs with
    | nil => simp [lexLeNat]
    | cons b bs =>
      simp only [lexLeNat]
      rcases Nat.lt_trichotomy a b with h | h | h
      · simp [h]
      · subst h
        simpa [Nat.lt_irrefl] using ih bs
      · simp [h, Nat.lt_asymm h]

theorem lexLeNat_trans : ∀ as bs cs, lexLeNat as bs = true → lexLeNat bs cs = true →
    lexLeNat as cs = true := by
  intro as
  induction as with
  | nil => intro bs cs _ _; simp [lexLeNat]
  | cons a as ih =>
    intro bs cs h1 h2
    cases bs with
    | nil => simp [lexLeNat] at h1
    | cons b bs =>
      cases cs with
      | nil => simp [lexLeNat] at h2
      | cons c cs =>
        simp only [lexLeNat] at h1 h2 ⊢
        rcases Nat.lt_trichotomy a b with hab | hab | hab
        · rcases Nat.lt_trichotomy b c with hbc | hbc | hbc
          · simp [Nat.lt_trans hab hbc]
          · subst hbc
            simp [hab]
          · simp [hbc, Nat.lt_asymm hbc] at h2
        · subst hab
          simp only [Nat.lt_irrefl, if_false] at h1
          rcases Nat.lt_trichotomy a c with hac | hac | hac
          · simp [hac]
          · subst hac
            simp only [Nat.lt_irrefl, if_false] at h2 ⊢
            exact ih bs cs h1 h2
          · simp [hac, Nat.lt_asymm hac] at h2
        · simp [hab, Nat.lt_asymm hab] at h1

theorem jsLe_trans : ∀ a b c : String, jsLe a b = true → jsLe b c = true → jsLe a c = true :=
  fun _ _ _ h1 h2 => lexLeNat_trans _ _ _ h1 h2

theorem jsLe_total : ∀ a b : String, (jsLe a b || jsLe b a) = true :=
  fun _ _ => lexLeNat_total _ _

theorem sortArrItems_eq_map : ∀ l : List Value, sortArrItems l = l.map sortObjectKeys := by
  intro l
  induction l with
  | nil => simp [sortArrItems]
  | cons v vs ih => simp [sortArrItems, ih]

theorem lookupField_mem : ∀ (l : List (String × Value)) (k : String) (v : Value),
    lookupField l k = some v → (k, v) ∈ l := by
  intro l
  induction l with
  | nil => intro k v h; simp [lookupField] at h
  | cons p rest ih =>
    intro k v h
    obtain ⟨k1, v1⟩ := p
    by_cases hk : k1 = k
    · subst hk
      simp [lookupField] at h
      subst h
      exact List.mem_cons_self _ _
    · simp [lookupField, hk] at h
      exact List.mem_cons_of_mem _ (ih k v h)

theorem lookupField_of_mem_keys : ∀ (l : List (String × Value)) (k : String),
    k ∈ l.map Prod.fst → ∃ v, lookupField l k = some v := by
  intro l
  induction l with
  | nil => intro k h; simp at h
  | cons p rest ih =>
    intro k h
    obtain ⟨k1, v1⟩ := p
    by_cases hk : k1 = k
    · exact ⟨v1, by simp [lookupField, hk]⟩
    · simp only [List.map_cons, List.mem_cons] at h
      rcases h with h | h
    
      · exact absurd h.symm hk
      · obtain ⟨v, hv⟩ := ih k h
        exact ⟨v, by simp [lookupField, hk, hv]⟩

theorem lookupField_cons_ne (k1 : String) (v1 : Value) (rest : List (String × Value))
    (k : String) (h : k1 ≠ k) : lookupField ((k1, v1) :: rest) k = lookupField rest k := by
  simp [lookupField, h]

theorem sortKeysLoop_eq_filterMap (l : List (String × Value)) :
    ∀ ks : List String, sortKeysLoop l ks = ks.filterMap (sortLookup l) := by
  intro ks
  induction ks with
  | nil => simp [sortKeysLoop]
  | cons k ks ih =>
    rw [sortKeysLoop]
    cases h : lookupField l k with
    | some v => simp [h, sortLookup, List.filterMap_cons, ih]
    | none => simp [h, sortLookup, List.filterMap_cons, ih]

theorem filterMap_sortLookup_cons (k1 : String) (v1 : Value) (rest : List (String × Value)) :
    ∀ ks : List String, (∀ k ∈ ks, k ≠ k1) →
      ks.filterMap (sortLookup ((k1, v1) :: rest)) = ks.filterMap (sortLookup rest) := by
  intro ks
  induction ks with
  | nil => intro _; rfl
  | cons k ks ih =>
    intro h
    have hk : k ≠ k1 := h k (List.mem_cons_self _ _)
    have h1 : sortLookup ((k1, v1) :: rest) k = sortLookup rest k := by
      simp [sortLookup, lookupField_cons_ne k1 v1 rest k (fun he => hk he.symm)]
    simp only [List.filterMap_cons, h1, ih (fun k2 hk2 => h k2 (List.mem_cons_of_mem _ hk2))]

theorem contains_eq_false_iff (ks : List String) (k : String) :
    ks.contains k = false ↔ k ∉ ks := by
  constructor
  · intro h hm
    have h2 : ks.contains k = true := List.elem_iff.mpr hm
    rw [h] at h2
    exact Bool.false_ne_true h2
  · intro hm
    cases hc : ks.contains k with
    | false => rfl
    | true => exact absurd (List.elem_iff.mp hc) hm

theorem nodupKeysB_iff (ks : List String) : nodupKeysB ks = true ↔ ks.Nodup := by
  induction ks with
  | nil => simp [nodupKeysB]
  | cons k ks ih =>
    simp only [nodupKeysB, Bool.and_eq_true, Bool.not_eq_true', List.nodup_cons]
    rw [contains_eq_false_iff, ih]

theorem filterMap_sortLookup_keys : ∀ l : List (String × Value),
    nodupKeysB (l.map Prod.fst) = true →
    (l.map Prod.fst).filterMap (sortLookup l)
      = l.map (fun kv => (kv.1, sortObjectKeys kv.2)) := by
  intro l
  induction l with
  | nil => intro _; rfl
  | cons p rest ih =>
    intro h
    obtain ⟨k1, v1⟩ := p
    simp only [List.map_cons, nodupKeysB, Bool.and_eq_true, Bool.not_eq_true'] at h
    have hk1 : k1 ∉ rest.map Prod.fst := (contains_eq_false_iff _ _).mp h.1
    have hs : sortLookup ((k1, v1) :: rest) k1 = some (k1, sortObjectKeys v1) := by
      simp [sortLookup, lookupField]
    simp only [List.map_cons, List.filterMap_cons, hs]
    rw [filterMap_sortLookup_cons k1 v1 rest (rest.map Prod.fst)
      (fun k hk hek => hk1 (hek ▸ hk)), ih h.2]

theorem map_fst_filterMap_sortLookup (l : List (String × Value)) :
    ∀ ks : List String, (∀ k ∈ ks, ∃ v, lookupField l k = some v) →
      (ks.filterMap (sortLookup l)).map Prod.fst = ks := by
  intro ks
  induction ks with
  | nil => intro _; rfl
  | cons k ks ih =>
    intro h
    obtain ⟨v, hv⟩ := h k (List.mem_cons_self _ _)
    have hs : sortLookup l k = some (k, sortObjectKeys v) := by simp [sortLookup, hv]
    simp only [List.filterMap_cons, hs, List.map_cons]
    rw [ih (fun k2 hk2 => h k2 (List.mem_cons_of_mem _ hk2))]

theorem mem_filterMap_sortLookup (l : List (String × Value)) (ks : List String)
    (kv : String × Value) (h : kv ∈ ks.filterMap (sortLookup l)) :
    ∃ k v0, kv = (k, sortObjectKeys v0) ∧ lookupField l k = some v0 := by
  obtain ⟨k, _, hf⟩ := List.mem_filterMap.mp h
  unfold sortLookup at hf
  cases hv : lookupField l k with
  | none =>
    rw [hv] at hf
    simp at hf
  | some v0 =>
    rw [hv] at hf
    simp only [Option.map_some'] at hf
    have hf2 : (k, sortObjectKeys v0) = kv := by simpa using hf
    exact ⟨k, v0, hf2.symm, hv⟩

theorem lexLeNat_antisymm : ∀ as bs, lexLeNat as bs = true → lexLeNat bs as = true →
    as = bs := by
  intro as
  induction as with
  | nil =>
    intro bs h1 h2
    cases bs with
    | nil => rfl
    | cons b bs => simp [lexLeNat] at h2
  | cons a as ih =>
    intro bs h1 h2
    cases bs with
    | nil => simp [lexLeNat] at h1
    | cons b bs =>
      simp only [lexLeNat] at h1 h2
      rcases Nat.lt_trichotomy a b with h | h | h
      · simp [h, Nat.lt_asymm h] at h2
      · subst h
        simp only [Nat.lt_irrefl, if_false] at h1 h2
        rw [ih bs h1 h2]
      · simp [h, Nat.lt_asymm h] at h1

theorem flatten_map_enc (cs : List Char) :
    (cs.map (fun c =>
      let n := c.toNat
      if n < 65536 then [n]
      else [55296 + (n - 65536) / 1024, 56320 + (n - 65536) % 1024])).flatten
    = unitsOfChars cs := by
  induction cs with
  | nil => rfl
  | cons c cs ih => simp [unitsOfChars, ih]

theorem char_valid_nat (c : Char) :
    c.toNat < 55296 ∨ (57343 < c.toNat ∧ c.toNat < 1114112) := by
  have h := c.valid
  rcases h with h | ⟨h1, h2⟩
  · left
    exact h
  · right
    exact ⟨h1, h2⟩

theorem char_toNat_inj (c d : Char) (h : c.toNat = d.toNat) : c = d := by
  apply Char.ext
  have h2 : c.val.toNat = d.val.toNat := h
  exact UInt32.ext h2

theorem unitsOfChars_inj : ∀ xs ys : List Char,
    unitsOfChars xs = unitsOfChars ys → xs = ys := by
  intro xs
  induction xs with
  | nil =>
    intro ys h
    cases ys with
    | nil => rfl
    | cons d ds =>
      exfalso
      simp only [unitsOfChars] at h
      by_cases hd : d.toNat < 65536 <;> simp [hd] at h
  | cons c cs ih =>
    intro ys h
    cases ys with
    | nil =>
      exfalso
      simp only [unitsOfChars] at h
      by_cases hc : c.toNat < 65536 <;> simp [hc] at h
    | cons d ds =>
      simp only [unitsOfChars] at h
      by_cases hc : c.toNat < 65536 <;> by_cases hd : d.toNat < 65536
      · simp only [if_pos hc, if_pos hd, List.singleton_append, List.cons.injEq] at h
        rw [char_toNat_inj c d h.1, ih ds h.2]
      · simp only [if_pos hc, if_neg hd, List.singleton_append, List.cons_append,
          List.cons.injEq] at h
        exfalso
        have hval := char_valid_nat c
        have hdv := char_valid_nat d
        have h1 := h.1
        omega
      · simp only [if_neg hc, if_pos hd, List.singleton_append, List.cons_append,
          List.cons.injEq] at h
        exfalso
        have hval := char_valid_nat d
        have hcv := char_valid_nat c
        have h1 := h.1
        omega
      · simp only [if_neg hc, if_neg hd, List.cons_append, List.cons.injEq] at h
        have hcv := char_valid_nat c
        have hdv := char_valid_nat d
        have hdm1 := Nat.div_add_mod (c.toNat - 65536) 1024
        have hdm2 := Nat.div_add_mod (d.toNat - 65536) 1024
        have h1 := h.1
        have h2 := h.2.1
        have hcd : c.toNat = d.toNat := by omega
        rw [char_toNat_inj c d hcd, ih ds h.2.2]

theorem utf16Units_inj (a b : String) (h : utf16Units a = utf16Units b) : a = b := by
  apply String.ext
  have ha : utf16Units a = unitsOfChars a.toList := flatten_map_enc a.toList
  have hb : utf16Units b = unitsOfChars b.toList := flatten_map_enc b.toList
  rw [ha, hb] at h
  exact unitsOfChars_inj a.toList b.toList h

theorem jsLe_antisymm (a b : String) (h1 : jsLe a b = true) (h2 : jsLe b a = true) :
    a = b :=
  utf16Units_inj a b (lexLeNat_antisymm _ _ h1 h2)

theorem sorted_perm_eq : ∀ l1 l2 : List String, l1.Perm l2 →
    l1.Pairwise (fun a b => jsLe a b = true) →
    l2.Pairwise (fun a b => jsLe a b = true) → l1 = l2 := by
  intro l1
  induction l1 with
  | nil =>
    intro l2 hp _ _
    exact hp.nil_eq
  | cons a t1 ih =>
    intro l2 hp h1 h2
    cases l2 with
    | nil =>
      have := hp.symm.nil_eq
      simp at this
    | cons b t2 =>
      rw [List.pairwise_cons] at h1 h2
      by_cases hab : a = b
      · subst hab
        rw [ih t2 hp.cons_inv h1.2 h2.2]
      · exfalso
        have ha2 : a ∈ b :: t2 := hp.mem_iff.mp (List.mem_cons_self _ _)
        have hb1 : b ∈ a :: t1 := hp.mem_iff.mpr (List.mem_cons_self _ _)
        have ha2b : a ∈ t2 := by
          rcases List.mem_cons.mp ha2 with h | h
          · exact absurd h hab
          · exact h
        have hb1a : b ∈ t1 := by
          rcases List.mem_cons.mp hb1 with h | h
          · exact absurd h.symm hab
          · exact h
        exact hab (jsLe_antisymm a b (h1.1 b hb1a) (h2.1 a ha2b))

theorem mergeSort_eq_of_perm (ms ks : List String) (hperm : ms.Perm ks)
    (hks : ks.Pairwise (fun a b => jsLe a b = true)) : ms.mergeSort jsLe = ks :=
  sorted_perm_eq _ _ ((List.mergeSort_perm ms jsLe).trans hperm)
    (List.sorted_mergeSort jsLe_trans jsLe_total ms) hks

theorem insertIdxSorted_perm (kv : String × Value) :
    ∀ xs, (insertIdxSorted kv xs).Perm (kv :: xs) := by
  intro xs
  induction xs with
  | nil => exact List.Perm.refl _
  | cons kv2 rest ih =>
    simp only [insertIdxSorted]
    by_cases h : parseNatDigits kv.1 ≤ parseNatDigits kv2.1
    · rw [if_pos h]
    · rw [if_neg h]
      exact (ih.cons kv2).trans (List.Perm.swap kv kv2 rest)

theorem sortIdxKeys_perm : ∀ xs : List (String × Value), (sortIdxKeys xs).Perm xs := by
  intro xs
  induction xs with
  | nil => exact List.Perm.refl _
  | cons kv rest ih =>
    simp only [sortIdxKeys]
    exact (insertIdxSorted_perm kv _).trans (ih.cons kv)

theorem pairwise_insertIdxSorted (kv : String × Value) : ∀ xs : List (String × Value),
    xs.Pairwise (fun a b => parseNatDigits a.1 ≤ parseNatDigits b.1) →
    (insertIdxSorted kv xs).Pairwise (fun a b => parseNatDigits a.1 ≤ parseNatDigits b.1) := by
  intro xs
  induction xs with
  | nil => intro _; simp [insertIdxSorted]
  | cons kv2 rest ih =>
    intro hp
    rw [List.pairwise_cons] at hp
    simp only [insertIdxSorted]
    by_cases h : parseNatDigits kv.1 ≤ parseNatDigits kv2.1
    · rw [if_pos h]
      refine List.pairwise_cons.mpr ⟨?_, List.pairwise_cons.mpr hp⟩
      intro b hb
      rcases List.mem_cons.mp hb with rfl | hb
      · exact h
      · exact Nat.le_trans h (hp.1 b hb)
    · rw [if_neg h]
      refine List.pairwise_cons.mpr ⟨?_, ih hp.2⟩
      intro b hb
      have hb2 := (insertIdxSorted_perm kv rest).mem_iff.mp hb
      rcases List.mem_cons.mp hb2 with rfl | hb2
      · omega
      · exact hp.1 b hb2

theorem sortIdxKeys_pairwise : ∀ xs : List (String × Value),
    (sortIdxKeys xs).Pairwise (fun a b => parseNatDigits a.1 ≤ parseNatDigits b.1) := by
  intro xs
  induction xs with
  | nil => simp [sortIdxKeys]
  | cons kv rest ih =>
    simp only [sortIdxKeys]
    exact pairwise_insertIdxSorted kv _ ih

theorem jsOwnOrder_perm (l : List (String × Value)) : (jsOwnOrder l).Perm l := by
  unfold jsOwnOrder
  exact ((sortIdxKeys_perm _).append (List.Perm.refl _)).trans
    (List.filter_append_perm (fun kv => isArrayIndexKey kv.1) l)

theorem lookupField_some_of_mem : ∀ l : List (String × Value), (l.map Prod.fst).Nodup →
    ∀ (k : String) (v : Value), (k, v) ∈ l → lookupField l k = some v := by
  intro l
  induction l with
  | nil => intro _ k v h; simp at h
  | cons p rest ih =>
    intro hnd k v h
    obtain ⟨k1, v1⟩ := p
    simp only [List.map_cons, List.nodup_cons] at hnd
    rcases List.mem_cons.mp h with heq | hmem
    · have hk : k = k1 := congrArg Prod.fst heq
      have hv : v = v1 := congrArg Prod.snd heq
      subst hk
      subst hv
      simp [lookupField]
    · by_cases hk : k1 = k
      · subst hk
        exact absurd (List.mem_map_of_mem Prod.fst hmem) hnd.1
      · simp only [lookupField, if_neg hk]
        exact ih hnd.2 k v hmem

theorem lookupField_none_iff : ∀ (l : List (String × Value)) (k : String),
    lookupField l k = none ↔ k ∉ l.map Prod.fst := by
  intro l
  induction l with
  | nil => intro k; simp [lookupField]
  | cons p rest ih =>
    intro k
    obtain ⟨k1, v1⟩ := p
    by_cases hk : k1 = k
    · subst hk
      simp [lookupField]
    · simp [lookupField, hk, ih, Ne.symm hk]

theorem lookupField_perm (l1 l2 : List (String × Value)) (hp : l1.Perm l2)
    (hnd : (l1.map Prod.fst).Nodup) (k : String) :
    lookupField l1 k = lookupField l2 k := by
  have hnd2 : (l2.map Prod.fst).Nodup := (hp.map Prod.fst).nodup hnd
  cases h : lookupField l1 k with
  | some v =>
    have hm := lookupField_mem l1 k v h
    exact (lookupField_some_of_mem l2 hnd2 k v (hp.mem_iff.mp hm)).symm
  | none =>
    have h1 := (lookupField_none_iff l1 k).mp h
    have h2 : k ∉ l2.map Prod.fst := fun hm => h1 ((hp.map Prod.fst).mem_iff.mpr hm)
    exact ((lookupField_none_iff l2 k).mpr h2).symm

theorem filterMap_congr_fun : ∀ (ks : List String)
    (f g : String → Option (String × Value)),
    (∀ k ∈ ks, f k = g k) → ks.filterMap f = ks.filterMap g := by
  intro ks
  induction ks with
  | nil => intro f g _; rfl
  | cons k ks ih =>
    intro f g h
    simp only [List.filterMap_cons, h k (List.mem_cons_self _ _),
      ih f g (fun k2 hk2 => h k2 (List.mem_cons_of_mem _ hk2))]

theorem sortObjectKeys_idem : ∀ v : Value, v.wf = true →
    sortObjectKeys (sortObjectKeys v) = sortObjectKeys v := by
  intro v
  induction v using Value.inductionOn with
  | hnull => intro _; simp [sortObjectKeys]
  | hbool b => intro _; simp [sortObjectKeys]
  | hnum n => intro _; simp [sortObjectKeys]
  | hstr s => intro _; simp [sortObjectKeys]
  | harr l ihl =>
    intro hwf
    have hvw : ∀ x ∈ l, x.wf = true := wfElems_mem (by simpa [Value.wf] using hwf)
    simp only [sortObjectKeys, sortArrItems_eq_map]
    rw [List.map_map]
    congr 1
    apply List.map_congr_left
    intro x hx
    simp only [Function.comp_apply]
    exact ihl x hx (hvw x hx)
  | hobj l ihl =>
    intro hwf
    have hw : nodupKeysB (l.map Prod.fst) = true ∧ Value.wfFields l = true := by
      simpa [Value.wf] using hwf
    have hIH := fun kv hkv => ihl kv hkv (wfFields_mem hw.2 kv hkv)
    have hperm : ((l.map Prod.fst).mergeSort jsLe).Perm (l.map Prod.fst) :=
      List.mergeSort_perm _ _
    have hsorted : ((l.map Prod.fst).mergeSort jsLe).Pairwise (fun a b => jsLe a b = true) :=
      List.sorted_mergeSort jsLe_trans jsLe_total _
    have hlook : ∀ k ∈ (l.map Prod.fst).mergeSort jsLe, ∃ w, lookupField l k = some w :=
      fun k hk => lookupField_of_mem_keys l k (hperm.mem_iff.mp hk)
    have hfst : ((((l.map Prod.fst).mergeSort jsLe).filterMap (sortLookup l)).map Prod.fst)
        = (l.map Prod.fst).mergeSort jsLe :=
      map_fst_filterMap_sortLookup l _ hlook
    have hndks : ((l.map Prod.fst).mergeSort jsLe).Nodup :=
      hperm.symm.nodup ((nodupKeysB_iff _).mp hw.1)
    have hndm : (((((l.map Prod.fst).mergeSort jsLe).filterMap (sortLookup l)).map Prod.fst)).Nodup := by
      rw [hfst]
      exact hndks
    have hnodup2 : nodupKeysB
        (((((l.map Prod.fst).mergeSort jsLe).filterMap (sortLookup l)).map Prod.fst)) = true :=
      (nodupKeysB_iff _).mpr hndm
    have hmain := filterMap_sortLookup_keys
      (((l.map Prod.fst).mergeSort jsLe).filterMap (sortLookup l)) hnodup2
    rw [hfst] at hmain
    have hpt : ∀ kv ∈ ((l.map Prod.fst).mergeSort jsLe).filterMap (sortLookup l),
        (kv.1, sortObjectKeys kv.2) = kv := by
      intro kv hkv
      obtain ⟨k, v0, rfl, hv⟩ := mem_filterMap_sortLookup l _ kv hkv
      have hmem := lookupField_mem l k v0 hv
      show (k, sortObjectKeys (sortObjectKeys v0)) = (k, sortObjectKeys v0)
      rw [hIH (k, v0) hmem]
    have hop : (jsOwnOrder (((l.map Prod.fst).mergeSort jsLe).filterMap (sortLookup l))).Perm
        (((l.map Prod.fst).mergeSort jsLe).filterMap (sortLookup l)) :=
      jsOwnOrder_perm _
    have hpfst : ((jsOwnOrder (((l.map Prod.fst).mergeSort jsLe).filterMap
          (sortLookup l))).map Prod.fst).Perm ((l.map Prod.fst).mergeSort jsLe) := by
      have h0 := hop.map Prod.fst
      rwa [hfst] at h0
    have hmsk : ((jsOwnOrder (((l.map Prod.fst).mergeSort jsLe).filterMap
          (sortLookup l))).map Prod.fst).mergeSort jsLe
        = (l.map Prod.fst).mergeSort jsLe :=
      mergeSort_eq_of_perm _ _ hpfst hsorted
    have hndJ : ((jsOwnOrder (((l.map Prod.fst).mergeSort jsLe).filterMap
          (sortLookup l))).map Prod.fst).Nodup :=
      (hop.map Prod.fst).symm.nodup hndm
    have hlkp : ∀ k, lookupField
        (jsOwnOrder (((l.map Prod.fst).mergeSort jsLe).filterMap (sortLookup l))) k
        = lookupField (((l.map Prod.fst).mergeSort jsLe).filterMap (sortLookup l)) k :=
      fun k => lookupField_perm _ _ hop hndJ k
    have hsl : ∀ k ∈ (l.map Prod.fst).mergeSort jsLe,
        sortLookup (jsOwnOrder (((l.map Prod.fst).mergeSort jsLe).filterMap (sortLookup l))) k
        = sortLookup (((l.map Prod.fst).mergeSort jsLe).filterMap (sortLookup l)) k := by
      intro k _
      simp only [sortLookup, hlkp k]
    simp only [sortObjectKeys, sortKeysLoop_eq_filterMap]
    rw [hmsk, filterMap_congr_fun _ _ _ hsl, hmain]
    have h2 : (((l.map Prod.fst).mergeSort jsLe).filterMap (sortLookup l)).map
          (fun kv => (kv.1, sortObjectKeys kv.2))
        = (((l.map Prod.fst).mergeSort jsLe).filterMap (sortLookup l)).map (fun kv => kv) :=
      List.map_congr_left hpt
    rw [h2]
    simp

/-- C10 counterexample: the original claim's "ascending lexicographic key
order" fails on reachable inputs.  Sorting `{"2": 2, "10": 1}` assigns the
lexicographically sorted keys `"10"`, `"2"` in that order, but the built
JS object exposes its array-index keys in ascending numeric order, so the
result iterates as `"2", "10"` — not lexicographically ascending, since
`jsLe "2" "10" = false`. -/
theorem c10_counterexample :
    sortObjectKeys (Value.obj [("2", Value.num 2), ("10", Value.num 1)])
      = Value.obj [("2", Value.num 2), ("10", Value.num 1)]
    ∧ ¬ (([("2", Value.num 2), ("10", Value.num 1)] : List (String × Value)).map
          Prod.fst).Pairwise (fun a b => jsLe a b = true) := by
  constructor
  · have hms : (["2", "10"] : List String).mergeSort jsLe = ["10", "2"] :=
      mergeSort_eq_of_perm _ _ (by decide) (by decide)
    have hv1 : sortObjectKeys (Value.num 1) = Value.num 1 := by rw [sortObjectKeys]
    have hv2 : sortObjectKeys (Value.num 2) = Value.num 2 := by rw [sortObjectKeys]
    rw [sortObjectKeys]
    have hm : ([("2", Value.num 2), ("10", Value.num 1)].map Prod.fst) = ["2", "10"] := rfl
    rw [hm, hms, sortKeysLoop_eq_filterMap]
    simp [sortLookup, lookupField, hv1, hv2]
    rfl
  · decide

/-- C10 (amended): `sortObjectKeys` leaves every scalar unchanged and maps
over arrays preserving length and element order; under well-formedness
(no duplicate mapping keys) it rebuilds every mapping level as a
permutation of the recursively sorted original bindings, but the key
order the rebuilt JS object exposes is NOT plain ascending lexicographic:
array-index keys (canonical numerals below 2^32 - 1) come first in
ascending numeric order, followed by the remaining keys in ascending JS
string order.  The operation is idempotent. -/
theorem c10_amended_sort_order (v : Value) (hwf : v.wf = true) :
    (sortObjectKeys Value.null = Value.null
      ∧ (∀ b, sortObjectKeys (Value.bool b) = Value.bool b)
      ∧ (∀ n, sortObjectKeys (Value.num n) = Value.num n)
      ∧ (∀ s, sortObjectKeys (Value.str s) = Value.str s))
    ∧ (∀ l : List Value, sortObjectKeys (Value.arr l) = Value.arr (l.map sortObjectKeys))
    ∧ (∀ l, v = Value.obj l →
        ∃ li lo, sortObjectKeys v = Value.obj (li ++ lo)
          ∧ (li ++ lo).Perm (l.map (fun kv => (kv.1, sortObjectKeys kv.2)))
          ∧ (∀ kv ∈ li, isArrayIndexKey kv.1 = true)
          ∧ (∀ kv ∈ lo, isArrayIndexKey kv.1 = false)
          ∧ (li.map (fun kv => parseNatDigits kv.1)).Pairwise (· ≤ ·)
          ∧ (lo.map Prod.fst).Pairwise (fun a b => jsLe a b = true))
    ∧ sortObjectKeys (sortObjectKeys v) = sortObjectKeys v := by
  refine ⟨⟨by simp [sortObjectKeys], fun b => by simp [sortObjectKeys],
      fun n => by simp [sortObjectKeys], fun s => by simp [sortObjectKeys]⟩,
    fun l => by simp [sortObjectKeys, sortArrItems_eq_map],
    ?_, sortObjectKeys_idem v hwf⟩
  intro l hveq
  subst hveq
  have hw : nodupKeysB (l.map Prod.fst) = true ∧ Value.wfFields l = true := by
    simpa [Value.wf] using hwf
  refine ⟨sortIdxKeys ((((l.map Prod.fst).mergeSort jsLe).filterMap (sortLookup l)).filter
      (fun kv => isArrayIndexKey kv.1)),
    (((l.map Prod.fst).mergeSort jsLe).filterMap (sortLookup l)).filter
      (fun kv => !isArrayIndexKey kv.1), ?_, ?_, ?_, ?_, ?_, ?_⟩
  · simp only [sortObjectKeys, sortKeysLoop_eq_filterMap]
    rfl
  · have h1 : ((((l.map Prod.fst).mergeSort jsLe)).filterMap (sortLookup l)).Perm
        ((l.map Prod.fst).filterMap (sortLookup l)) :=
      List.Perm.filterMap (sortLookup l) (List.mergeSort_perm _ _)
    rw [filterMap_sortLookup_keys l hw.1] at h1
    exact (jsOwnOrder_perm _).trans h1
  · intro kv hkv
    have h2 := (sortIdxKeys_perm _).mem_iff.mp hkv
    exact (List.mem_filter.mp h2).2
  · intro kv hkv
    have h2 := (List.mem_filter.mp hkv).2
    simpa using h2
  · rw [List.pairwise_map]
    exact sortIdxKeys_pairwise _
  · have hfst : ((((l.map Prod.fst).mergeSort jsLe).filterMap (sortLookup l)).map Prod.fst)
        = (l.map Prod.fst).mergeSort jsLe :=
      map_fst_filterMap_sortLookup l _
        (fun k hk => lookupField_of_mem_keys l k ((List.mergeSort_perm _ _).mem_iff.mp hk))
    have h3 := List.Sublist.map Prod.fst
      (List.filter_sublist (p := fun kv => !isArrayIndexKey kv.1)
        ((((l.map Prod.fst).mergeSort jsLe).filterMap (sortLookup l))))
    rw [hfst] at h3
    exact List.Pairwise.sublist h3 (List.sorted_mergeSort jsLe_trans jsLe_total _)

theorem c10_amended_sort_order_witness :
    (Value.obj [("b", Value.num 1), ("a", Value.null)]).wf = true
    ∧ ((sortObjectKeys Value.null = Value.null
        ∧ (∀ b, sortObjectKeys (Value.bool b) = Value.bool b)
        ∧ (∀ n, sortObjectKeys (Value.num n) = Value.num n)
        ∧ (∀ s, sortObjectKeys (Value.str s) = Value.str s))
      ∧ (∀ l : List Value, sortObjectKeys (Value.arr l) = Value.arr (l.map sortObjectKeys))
      ∧ (∀ l, Value.obj [("b", Value.num 1), ("a", Value.null)] = Value.obj l →
          ∃ li lo,
            sortObjectKeys (Value.obj [("b", Value.num 1), ("a", Value.null)])
              = Value.obj (li ++ lo)
            ∧ (li ++ lo).Perm (l.map (fun kv => (kv.1, sortObjectKeys kv.2)))
            ∧ (∀ kv ∈ li, isArrayIndexKey kv.1 = true)
            ∧ (∀ kv ∈ lo, isArrayIndexKey kv.1 = false)
            ∧ (li.map (fun kv => parseNatDigits kv.1)).Pairwise (· ≤ ·)
            ∧ (lo.map Prod.fst).Pairwise (fun a b => jsLe a b = true))
      ∧ sortObjectKeys (sortObjectKeys (Value.obj [("b", Value.num 1), ("a", Value.null)]))
          = sortObjectKeys (Value.obj [("b", Value.num 1), ("a", Value.null)])) :=
  ⟨by decide,
    c10_amended_sort_order (Value.obj [("b", Value.num 1), ("a", Value.null)]) (by decide)⟩
